import Mathlib

/-!
Shallow embedding of `lifelines/estimation.py` (the survival-analysis estimation
engine: Nelson-Aalen, Kaplan-Meier, Aalen additive regression, quantile lookup)
together with proofs about the embedded definitions.

Conventions of the embedding:
* numpy floating-point numbers are embedded as exact rationals `ℚ` (the claims under
  study are about the algorithmic structure, in which all arithmetic is rational);
* integer counts are embedded as `ℤ` (Python integers do not overflow);
* a pandas Series/DataFrame column indexed by the timeline is embedded as a function
  `ℚ → ℚ` from a timeline point to its value, with the vectorized boolean-mask
  assignment `df.ix[mask] = v` embedded as the pointwise functional update
  `fun x => if mask x then v else old x` (all masks in the source depend only on the
  value of the timeline point, never on its position);
* code that raises an exception (IndexError on `timeline[0]` for an empty timeline,
  NameError on a loop variable after a zero-iteration loop, NameError on `V` in the
  `except LinAlgError` branch before any successful inversion, AttributeError on
  `None.astype`) is embedded as an `Option` returning `none`.
-/

namespace Lifelines

/-- One row of the risk-set table (spec §3 `RiskSetRow`): one row per distinct time,
`removed` subjects leave the risk set at this time, of which `observed_deaths` died
and `missing` were censored. -/
structure RiskSetRow where
  time : ℚ
  removed : ℤ
  observed_deaths : ℤ
  missing : ℤ
deriving DecidableEq

/-- Insertion of `x` into `l` before the first element `y` with `le x y`. -/
def insertLe {α : Type} (le : α → α → Bool) (x : α) : List α → List α
  | [] => [x]
  | y :: ys => if le x y then x :: y :: ys else y :: insertLe le x ys

/-- Insertion sort by the boolean relation `le`. -/
def isortBy {α : Type} (le : α → α → Bool) : List α → List α
  | [] => []
  | x :: xs => insertLe le x (isortBy le xs)

/-- Modelled from the spec: `dataframe_from_events_censorship` lives in
`lifelines.utils`, which is not part of the core sources; spec §6 specifies it as the
RiskSetAggregator: group identical times, count observed vs. censored exits, sort
ascending, with `removed == observed_deaths + missing` per row and every input
subject covered exactly once.  `riskSetRowAt` builds the row of one distinct time. -/
def riskSetRowAt (pairs : List (ℚ × Bool)) (t : ℚ) : RiskSetRow :=
  { time := t
    removed := (pairs.countP (fun pr => decide (pr.1 = t)) : ℤ)
    observed_deaths := (pairs.countP (fun pr => decide (pr.1 = t) && pr.2) : ℤ)
    missing := (pairs.countP (fun pr => decide (pr.1 = t) && !pr.2) : ℤ) }

/-- Modelled from the spec: the full risk-set table, one `riskSetRowAt` per distinct
time, in ascending time order. -/
def dataframe_from_events_censorship (times : List ℚ) (observed : List Bool) :
    List RiskSetRow :=
  (isortBy (fun a b => decide (a ≤ b)) times.dedup).map (riskSetRowAt (times.zip observed))

/-- The running state of the loop of `_additive_estimate` (lines 176-192): risk-set
size `N`, accumulated value `v`, accumulated variance `v_sq`, interval cursor `t0`,
and the two curves being filled in. -/
structure AEState where
  N : ℤ
  v : ℚ
  v_sq : ℚ
  t0 : ℚ
  est : ℚ → ℚ
  var : ℚ → ℚ

/-- One iteration of the loop of `_additive_estimate` (lines 184-192): assign the
current `v` and `v_sq` to every timeline point in `[t0, t)`, then `N -= missing`,
`v = updV v N d` (in the source `v += additive_f(N, d)`, and for the exponentiated
Kaplan-Meier curve the multiplicative image of that update), `v_sq = updS v_sq N d`
(`v_sq += variance_f(N, d)`), `N -= observed_deaths`, `t_0 = t`. -/
def aeStep (updV updS : ℚ → ℤ → ℤ → ℚ) (s : AEState) (r : RiskSetRow) : AEState :=
  { N := s.N - r.missing - r.observed_deaths
    v := updV s.v (s.N - r.missing) r.observed_deaths
    v_sq := updS s.v_sq (s.N - r.missing) r.observed_deaths
    t0 := r.time
    est := fun x => if s.t0 ≤ x ∧ x < r.time then s.v else s.est x
    var := fun x => if s.t0 ≤ x ∧ x < r.time then s.v_sq else s.var x }

/-- The assignment after the loop of `_additive_estimate` (lines 193-194): the final
`v`, `v_sq` go to every timeline point `≥` the last event time.  After the loop the
cursor `t0` equals the loop variable `t` (both were set to the last row's time at
line 192), so the mask `timeline >= t` is `t0 ≤ x`. -/
def aeFinal (s : AEState) : AEState :=
  { s with
    est := fun x => if s.t0 ≤ x then s.v else s.est x
    var := fun x => if s.t0 ≤ x then s.v_sq else s.var x }

/-- The loop of `_additive_estimate` followed by the final assignment. -/
def aeRun (updV updS : ℚ → ℤ → ℤ → ℚ) (rows : List RiskSetRow) (s : AEState) :
    AEState :=
  aeFinal (rows.foldl (aeStep updV updS) s)

/-- Lines 168-170 of `_additive_estimate`: a `0` is prepended to the timeline when it
starts after `0`. -/
def prependZero (tl : List ℚ) : List ℚ :=
  match tl with
  | [] => []
  | h :: _ => if 0 < h then 0 :: tl else tl

/-- Line 176: `N = event_times["removed"].sum()`. -/
def sumRemoved (rows : List RiskSetRow) : ℤ :=
  (rows.map RiskSetRow.removed).sum

/-- The generic accumulation of `_additive_estimate` (lines 162-195), parameterized by
the value update `updV`, the variance update `updS` and the initial value `v0`
(`0` for the additive run of the source; `1` for the exponentiated Kaplan-Meier run).
The curves start at the all-`v0` initialization (zeros arrays at lines 173-174, plus
the no-op write of `0` over `timeline < 0` at lines 179-180; `exp` of the zeros array
for the Kaplan-Meier image).  Both failure modes of the source return `none`: an empty
timeline raises IndexError at `timeline[0]` (line 169), and an empty risk-set table
leaves the loop variable `t` unbound so line 193 raises NameError. -/
def additiveRun (updV updS : ℚ → ℤ → ℤ → ℚ) (v0 : ℚ) (rows : List RiskSetRow)
    (tl : List ℚ) : Option (List ℚ × (ℚ → ℚ) × (ℚ → ℚ)) :=
  match tl with
  | [] => none
  | _ :: _ =>
    match rows with
    | [] => none
    | _ :: _ =>
      let s := aeRun updV updS rows
        { N := sumRemoved rows, v := v0, v_sq := 0, t0 := 0
          est := fun _ => v0, var := fun _ => 0 }
      some (prependZero tl, s.est, s.var)

/-- `_additive_estimate(event_times, timeline, additive_f, columns, variance_f)`
(lines 162-195): the additive accumulation `v += additive_f(N, d)`,
`v_sq += variance_f(N, d)` starting from `0`. -/
def _additive_estimate (rows : List RiskSetRow) (tl : List ℚ)
    (f g : ℤ → ℤ → ℚ) : Option (List ℚ × (ℚ → ℚ) × (ℚ → ℚ)) :=
  additiveRun (fun v N d => v + f N d) (fun w N d => w + g N d) 0 rows tl

/-- `NelsonAalenFitter._variance_f_smooth` (lines 75-78). -/
def _variance_f_smooth (N d : ℤ) : ℚ :=
  if N = 0 ∧ d = 0 then 0
  else ((List.range d.toNat).map (fun i : ℕ => 1 / (((N : ℚ) - (i : ℚ)) ^ 2))).sum

/-- `NelsonAalenFitter._variance_f_discrete` (lines 80-83). -/
def _variance_f_discrete (N d : ℤ) : ℚ :=
  if N = 0 ∧ d = 0 then 0
  else ((N : ℚ) - (d : ℚ)) * (d : ℚ) / (N : ℚ) ^ 3

/-- `NelsonAalenFitter._additive_f_smooth` (lines 85-88). -/
def _additive_f_smooth (N d : ℤ) : ℚ :=
  if N = 0 ∧ d = 0 then 0
  else ((List.range d.toNat).map (fun i : ℕ => 1 / ((N : ℚ) - (i : ℚ)))).sum

/-- `NelsonAalenFitter._additive_f_discrete` (lines 90-94). -/
def _additive_f_discrete (N d : ℤ) : ℚ :=
  if N = 0 ∧ d = 0 then 0 else (d : ℚ) / (N : ℚ)

/-- `KaplanMeierFitter._variance_f` (lines 156-159). -/
def KaplanMeierFitter._variance_f (N d : ℤ) : ℚ :=
  if N = 0 ∧ d = 0 then 0 else (d : ℚ) / ((N : ℚ) * ((N : ℚ) - (d : ℚ)))

/-- The multiplicative image of `KaplanMeierFitter._additive_f` (lines 141-144,
`log(1 - d/N)`, with `log 1 = 0` for the `N == d == 0` guard) under `exp`: the
per-row survival factor `1 - d/N`.  The source accumulates `log(1 - d/N)` and then
exponentiates (`np.exp` at line 135); `exp` maps that additive recursion exactly onto
the multiplicative recursion with this factor, including the boundary
`log 0 = -inf`, `exp(-inf) = 0` of IEEE arithmetic which corresponds to the factor
being `0` when `d = N`. -/
def _km_factor (N d : ℤ) : ℚ :=
  if N = 0 ∧ d = 0 then 1 else 1 - (d : ℚ) / (N : ℚ)

/-- The `exp`-image of `_additive_estimate` as invoked by `KaplanMeierFitter.fit`
(lines 132-135): `survival_function_ = np.exp(log_survival_function)` where the log
survival function is the additive run with `f = log(1 - d/N)`.  See `_km_factor`. -/
def kmSurvivalEstimate (rows : List RiskSetRow) (tl : List ℚ) :
    Option (List ℚ × (ℚ → ℚ) × (ℚ → ℚ)) :=
  additiveRun (fun v N d => v * _km_factor N d)
    (fun w N d => w + KaplanMeierFitter._variance_f N d) 1 rows tl

/-- The fields of a fitted `NelsonAalenFitter` that `fit` (lines 32-65) assigns to
`self`: the timeline, the cumulative hazard curve and the internal variance
accumulator `cumulative_sq_` (fed to `_bounds`). -/
structure NAFitted where
  timeline : List ℚ
  cumulative_hazard_ : ℚ → ℚ
  cumulative_sq_ : ℚ → ℚ

/-- `NelsonAalenFitter.fit` (lines 32-65), as the fitted state written to `self`.
A `none` censorship argument defaults to all-observed (line 47); a `none` timeline
defaults to the risk-set table's index, the distinct sorted event times (line 56);
the smoothing flag (chosen in `__init__`, lines 22-30) selects the smooth or
discrete increment and variance functions. -/
def NelsonAalenFitter.fitState (nelson_aalen_smoothing : Bool) (event_times : List ℚ)
    (censorship : Option (List Bool)) (timeline : Option (List ℚ)) : Option NAFitted :=
  let cens := match censorship with
    | none => List.replicate event_times.length true
    | some c => c
  let table := dataframe_from_events_censorship event_times cens
  let tl := match timeline with
    | none => table.map RiskSetRow.time
    | some t => t
  let f := if nelson_aalen_smoothing then _additive_f_smooth else _additive_f_discrete
  let g := if nelson_aalen_smoothing then _variance_f_smooth else _variance_f_discrete
  (_additive_estimate table tl f g).map (fun res =>
    { timeline := res.1, cumulative_hazard_ := res.2.1, cumulative_sq_ := res.2.2 })

/-- The value returned by `NelsonAalenFitter.fit`: the method ends in a bare
`return` (line 65), so a call that completes returns Python `None` (embedded as the
inner `none`), never `self`; a call that raises returns nothing (outer `none`). -/
def NelsonAalenFitter.fitReturn (nelson_aalen_smoothing : Bool) (event_times : List ℚ)
    (censorship : Option (List Bool)) (timeline : Option (List ℚ)) :
    Option (Option NAFitted) :=
  (NelsonAalenFitter.fitState nelson_aalen_smoothing event_times censorship
    timeline).map (fun _ => none)

/-- The index value of the first entry of `vals` that lies strictly below `q`
(`(survival_functions < q).idxmax(0)`, line 359: `idxmax` of a boolean column is the
index of its first `True`, or the first index when no `True` exists). -/
def firstDropIdx (q : ℚ) : List ℚ → List ℚ → ℚ
  | i :: is, v :: vs => if v < q then i else firstDropIdx q is vs
  | i :: _, [] => i
  | [], _ => 0

/-- `qth_survival_times(q, survival_functions)` (lines 348-364), for one
time-indexed column (`idx` is the DataFrame index, `vals` the column values):
assert `0 <= q <= 1` (an AssertionError is `none`); `sv_b = survival_functions < q`;
`v = sv_b.idxmax(0)` (first index whose value is below `q`); then every column whose
LAST entry is not below `q` is overwritten with the sentinel `-1` (line 360).
`.iloc[-1]` on an empty frame raises, so the empty curve is `none`. -/
def qth_survival_times (q : ℚ) (idx vals : List ℚ) : Option ℚ :=
  if 0 ≤ q ∧ q ≤ 1 then
    match vals.getLast? with
    | none => none
    | some last => if last < q then some (firstDropIdx q idx vals) else some (-1)
  else none

/-- `median_survival_times` (lines 366-367). -/
def median_survival_times (idx vals : List ℚ) : Option ℚ :=
  qth_survival_times (1 / 2) idx vals

/-- The fields of a fitted `KaplanMeierFitter` that `fit` (lines 102-139) assigns to
`self`. -/
structure KMFitted where
  timeline : List ℚ
  survival_function_ : ℚ → ℚ
  cumulative_sq_ : ℚ → ℚ
  median_ : Option ℚ

/-- `KaplanMeierFitter.fit` (lines 102-139), as the fitted state written to `self`:
the additive estimate of the log survival function is exponentiated (line 135,
embedded as the multiplicative run `kmSurvivalEstimate`), and the median is the
0.5-quantile lookup on the resulting survival DataFrame (line 136). -/
def KaplanMeierFitter.fitState (event_times : List ℚ) (censorship : Option (List Bool))
    (timeline : Option (List ℚ)) : Option KMFitted :=
  let cens := match censorship with
    | none => List.replicate event_times.length true
    | some c => c
  let table := dataframe_from_events_censorship event_times cens
  let tl := match timeline with
    | none => table.map RiskSetRow.time
    | some t => t
  (kmSurvivalEstimate table tl).map (fun res =>
    { timeline := res.1, survival_function_ := res.2.1, cumulative_sq_ := res.2.2
      median_ := median_survival_times res.1 (res.1.map res.2.1) })

/-- The value returned by `KaplanMeierFitter.fit`: `return self` (line 139), so a
completing call returns the fitted instance itself. -/
def KaplanMeierFitter.fitReturn (event_times : List ℚ) (censorship : Option (List Bool))
    (timeline : Option (List ℚ)) : Option (Option KMFitted) :=
  (KaplanMeierFitter.fitState event_times censorship timeline).map some

/-! ## Aalen additive regression (`AalenAdditiveFitter`, lines 198-343) -/

/-- The running state of the per-event-time recursion of `AalenAdditiveFitter.fit`
(lines 260-284): the (mutated, row-zeroed) design matrix `X`, the last successfully
computed pseudo-inverse direction `V` (`none` embeds the Python local variable being
unbound before the first successful inversion), the last step coefficient `v`, the
running `cum_v`, the interval cursor `t_0`, and the three result tables. -/
structure AAState (n p : ℕ) where
  X : Matrix (Fin n) (Fin p) ℚ
  V : Option (Matrix (Fin p) (Fin n) ℚ)
  v : Fin p → ℚ
  cum : Fin p → ℚ
  t0 : ℚ
  cumHaz : ℚ → Fin p → ℚ
  haz : Fin n → Fin p → ℚ
  varAcc : ℚ → Fin p → ℚ

/-- `X_[i,:] = 0`: zero out row `i` of the design matrix. -/
def zeroRow {n p : ℕ} (X : Matrix (Fin n) (Fin p) ℚ) (i : Fin n) :
    Matrix (Fin n) (Fin p) ℚ :=
  Function.update X i 0

/-- The design matrix used at step `i` (lines 265-266): a censored subject's row is
zeroed before the inversion. -/
def censoredX {n p : ℕ} (X : Matrix (Fin n) (Fin p) ℚ) (obs : Fin n → Bool)
    (i : Fin n) : Matrix (Fin n) (Fin p) ℚ :=
  if obs i then X else zeroRow X i

/-- The first row of `todo` with a nonzero entry in column `k`, and the remaining
rows (the pivot search of the elimination behind `numpy.linalg.inv`). -/
def findPivot (k : ℕ) : List (List ℚ) → Option (List ℚ × List (List ℚ))
  | [] => none
  | r :: rs =>
    if r.getD k 0 ≠ 0 then some (r, rs)
    else
      match findPivot k rs with
      | none => none
      | some (pr, rest) => some (pr, r :: rest)

/-- Scale a row so that its entry in column `k` becomes `1`. -/
def normalizeRow (k : ℕ) (r : List ℚ) : List ℚ :=
  r.map (fun x => x / r.getD k 0)

/-- Subtract the right multiple of the (normalized) pivot row `pr` from `r` so that
column `k` of `r` becomes `0`. -/
def elimOther (k : ℕ) (pr r : List ℚ) : List ℚ :=
  (r.zip pr).map (fun q => q.1 - r.getD k 0 * q.2)

/-- One Gauss-Jordan column step: pick a pivot for column `k` among the unprocessed
rows (`none` when every candidate entry is zero, i.e. the matrix is singular),
normalize it, and eliminate column `k` from every other row. -/
def gjStep (k : ℕ) (done todo : List (List ℚ)) :
    Option (List (List ℚ) × List (List ℚ)) :=
  match findPivot k todo with
  | none => none
  | some (r, rest) =>
    let pr := normalizeRow k r
    some (done.map (elimOther k pr) ++ [pr], rest.map (elimOther k pr))

/-- Gauss-Jordan elimination over `steps` successive columns starting at column `k`. -/
def gjRun : ℕ → ℕ → List (List ℚ) → List (List ℚ) → Option (List (List ℚ))
  | 0, _, done, _ => some done
  | steps + 1, k, done, todo =>
    match gjStep k done todo with
    | none => none
    | some (d, t) => gjRun steps (k + 1) d t

/-- `numpy.linalg.inv` (line 268): LAPACK's LU elimination, which raises
`LinAlgError` (here `none`) exactly when a pivot column has no nonzero entry, i.e.
when the matrix is singular; otherwise Gauss-Jordan elimination of the augmented
matrix `[M | I]` yields the inverse on the right block. -/
def matInv {p : ℕ} (M : Matrix (Fin p) (Fin p) ℚ) :
    Option (Matrix (Fin p) (Fin p) ℚ) :=
  let aug := (List.finRange p).map (fun i =>
    (List.finRange p).map (fun j => M i j) ++
      (List.finRange p).map (fun j => if i = j then (1 : ℚ) else 0))
  match gjRun p 0 [] aug with
  | none => none
  | some rows => some (fun i j => (rows.getD i.val []).getD (p + j.val) 0)

/-- One iteration of the loop of `AalenAdditiveFitter.fit` (lines 263-284).
On a successful inversion (`try` body, lines 268-284): `V = inv(X^T X - penalizer) X^T`,
`v = V e_i` (column `i` of `V`), `cum_v += v`, the relevant timeline points
`(t_0, t_i]` accumulate `cum_v` into `cumulative_hazards_` and `diag(V_i V_i^T)` into
the variance table, row `i` of `hazards_` accumulates `v`, then row `i` of the design
matrix is zeroed and `t_0` advances.  On `LinAlgError` (`except` branch, lines
269-276): if no previous iteration bound `V`, the handler itself raises `NameError`
and the fit aborts (`none`); otherwise the current `cum_v` is *assigned* to the
relevant timeline points, the stale `v` is assigned to row `i` of `hazards_`, the
stale `V`'s column `i` provides the (degenerate) variance contribution, row `i` is
zeroed and `t_0` advances, leaving `cum_v` unchanged. -/
def aalenStep {n p : ℕ} (penal : ℚ) (times : Fin n → ℚ) (obs : Fin n → Bool)
    (s : AAState n p) (i : Fin n) : Option (AAState n p) :=
  let X1 := censoredX s.X obs i
  match matInv (X1.transpose * X1 - penal • (1 : Matrix (Fin p) (Fin p) ℚ)) with
  | none =>
    match s.V with
    | none => none
    | some V0 =>
      some { X := zeroRow X1 i, V := some V0, v := s.v, cum := s.cum, t0 := times i
             cumHaz := fun x => if s.t0 < x ∧ x ≤ times i then s.cum else s.cumHaz x
             haz := Function.update s.haz i s.v
             varAcc := fun x =>
               if s.t0 < x ∧ x ≤ times i then (fun j => V0 j i ^ 2) else s.varAcc x }
  | some Minv =>
    let V := Minv * X1.transpose
    let v : Fin p → ℚ := fun j => V j i
    let cum : Fin p → ℚ := fun j => s.cum j + v j
    some { X := zeroRow X1 i, V := some V, v := v, cum := cum, t0 := times i
           cumHaz := fun x =>
             if s.t0 < x ∧ x ≤ times i then (fun j => s.cumHaz x j + cum j)
             else s.cumHaz x
           haz := Function.update s.haz i (fun j => s.haz i j + v j)
           varAcc := fun x =>
             if s.t0 < x ∧ x ≤ times i then (fun j => s.varAcc x j + V j i ^ 2)
             else s.varAcc x }

/-- The loop of `AalenAdditiveFitter.fit` over the sorted subject indices; an
aborted step aborts the whole fit. -/
def aalenLoop {n p : ℕ} (penal : ℚ) (times : Fin n → ℚ) (obs : Fin n → Bool) :
    List (Fin n) → AAState n p → Option (AAState n p)
  | [], s => some s
  | i :: is, s =>
    match aalenStep penal times obs s i with
    | none => none
    | some s' => aalenLoop penal times obs is s'

/-- The fields of a fitted `AalenAdditiveFitter` that `fit` (lines 205-295) assigns
to `self`, including the *raw* `censorship` argument stored at line 293 (not the
all-observed default substituted at lines 239-242). -/
structure AAFitted (n p : ℕ) where
  timeline : List ℚ
  cumulative_hazards_ : ℚ → Fin p → ℚ
  hazards_ : Fin n → Fin p → ℚ
  _variance : ℚ → Fin p → ℚ
  censorship : Option (Fin n → Bool)

instance {n p : ℕ} : Inhabited (AAFitted n p) :=
  ⟨⟨[], fun _ _ => 0, fun _ _ => 0, fun _ _ => 0, none⟩⟩

/-- The permutation `ix = event_times.argsort()[0,:]` (line 228), embedded as a
(stable) insertion sort of the subject indices by event time. -/
def argsortFin {n : ℕ} (t : Fin n → ℚ) : List (Fin n) :=
  isortBy (fun i j => decide (t i ≤ t j)) (List.finRange n)

/-- The `k`-th subject index in event-time order: `ix[k]`.  The sorted index list
is a permutation of `List.finRange n`, so it has length `n` and the `getD` default
is never reached. -/
def sortedIdx {n : ℕ} (t : Fin n → ℚ) (k : Fin n) : Fin n :=
  (argsortFin t).getD k.val k

/-- `p = d (+ 1 if fit_intercept)` -- the coefficient count of the regression. -/
def aalenP (fit_intercept : Bool) (d : ℕ) : ℕ :=
  d + (cond fit_intercept 1 0)

/-- `AalenAdditiveFitter.fit` (lines 205-295), as the fitted state written to `self`.
Subjects are sorted by event time (`ix`, lines 228-230); the design matrix is
row-permuted by `ix` and, when `fit_intercept` is set, a constant `1` column is
appended (line 229); the `observed` array defaults to all-ones when `censorship` is
`None` (lines 239-242) and -- exactly as in the source -- is *not* permuted by `ix`;
the timeline defaults to the sorted event times and gets `0` prepended when it starts
after `0` (lines 244-250); `t_0` is initialized to the *first sorted event time*
(line 260, so the first step's interval `(t_0, t_0]` is empty); after the loop the
cleanup (lines 286-290) assigns the final `cum_v`, the last `v` and the last `V`'s
column to all timeline points beyond the last event time.  An empty sample raises
(IndexError on `sorted_event_times[0]` or `timeline[0]`): `none`. -/
def AalenAdditiveFitter.fitState (fit_intercept : Bool) (penal : ℚ) {n d : ℕ}
    (event_times : Fin n → ℚ) (X : Matrix (Fin n) (Fin d) ℚ)
    (timeline : Option (List ℚ)) (censorship : Option (Fin n → Bool)) :
    Option (AAFitted n (aalenP fit_intercept d)) :=
  let sorted : Fin n → ℚ := fun k => event_times (sortedIdx event_times k)
  let X_ : Matrix (Fin n) (Fin (aalenP fit_intercept d)) ℚ := fun k j =>
    if h : (j : ℕ) < d then X (sortedIdx event_times k) ⟨j, h⟩ else 1
  let observed : Fin n → Bool := match censorship with
    | none => fun _ => true
    | some c => c
  let tl0 : List ℚ := match timeline with
    | none => (List.finRange n).map sorted
    | some t => t
  match tl0 with
  | [] => none
  | _ :: _ =>
    let tl := prependZero tl0
    if hn : 0 < n then
      let s0 : AAState n (aalenP fit_intercept d) :=
        { X := X_, V := none, v := fun _ => 0, cum := fun _ => 0, t0 := sorted ⟨0, hn⟩
          cumHaz := fun _ _ => 0, haz := fun _ _ => 0, varAcc := fun _ _ => 0 }
      match aalenLoop penal sorted observed (List.finRange n) s0 with
      | none => none
      | some s =>
        match s.V with
        | none => none
        | some V0 =>
          let ilast : Fin n := ⟨n - 1, by omega⟩
          some { timeline := tl
                 cumulative_hazards_ := fun x =>
                   if sorted ilast < x then s.cum else s.cumHaz x
                 hazards_ := Function.update s.haz ilast s.v
                 _variance := fun x =>
                   if sorted ilast < x then (fun j => V0 j ilast ^ 2) else s.varAcc x
                 censorship := censorship }
    else none

/-- The value returned by `AalenAdditiveFitter.fit`: `return self` (line 295). -/
def AalenAdditiveFitter.fitReturn (fit_intercept : Bool) (penal : ℚ) {n d : ℕ}
    (event_times : Fin n → ℚ) (X : Matrix (Fin n) (Fin d) ℚ)
    (timeline : Option (List ℚ)) (censorship : Option (Fin n → Bool)) :
    Option (Option (AAFitted n (aalenP fit_intercept d))) :=
  (AalenAdditiveFitter.fitState fit_intercept penal event_times X timeline
    censorship).map some

/-- `gaussian(t, T, sigma)` (lines 369-370). -/
noncomputable def gaussian (t T sigma : ℝ) : ℝ :=
  1 / Real.sqrt (Real.pi * 2 * sigma ^ 2) * Real.exp (-(1 / 2) * (t - T) ^ 2 / sigma ^ 2)

/-- `AalenAdditiveFitter.smoothed_hazards_(bandwith)` (lines 297-304):
`C = self.censorship.astype(bool)` raises `AttributeError` when the stored
censorship is Python `None` (`none` here); otherwise the timeline is boolean-masked
by `C` (a numpy boolean index, which raises unless the mask length matches the
timeline length) and the kernel-smoothed hazard matrix is returned. -/
noncomputable def AAFitted.smoothed_hazards_ {n p : ℕ} (F : AAFitted n p)
    (bandwith : ℝ) : Option (List (List ℝ)) :=
  match F.censorship with
  | none => none
  | some C =>
    if h : F.timeline.length = n then
      some (F.timeline.map (fun t =>
        (List.finRange p).map (fun j =>
          (((List.finRange n).filter (fun k => C k)).map (fun k =>
            gaussian (t : ℝ) ((F.timeline.get ⟨k.val, by rw [h]; exact k.isLt⟩ : ℚ) : ℝ)
                bandwith *
              ((F.hazards_ k j : ℚ) : ℝ))).sum)))
    else none

/-! ## Concrete fitted instances used by the example theorems below

Each `...Fit` value runs a fitter on a small concrete sample; the companion
definition extracts the fitted state (the fallback branch is never reached, as the
accompanying theorems prove the fits return `some`). -/

def naWorkedFit : Option NAFitted :=
  NelsonAalenFitter.fitState false [1, 2, 2, 3] (some [true, true, false, true]) none

def naWorked : NAFitted :=
  match naWorkedFit with
  | some F => F
  | none => ⟨[], fun _ => 0, fun _ => 0⟩

def kmWorkedFit : Option KMFitted :=
  KaplanMeierFitter.fitState [1, 2, 2, 3] (some [true, true, false, true]) none

def kmWorked : KMFitted :=
  match kmWorkedFit with
  | some F => F
  | none => ⟨[], fun _ => 0, fun _ => 0, none⟩

def naSmallFit : Option NAFitted := NelsonAalenFitter.fitState true [1, 2] none none

def naSmall : NAFitted :=
  match naSmallFit with
  | some F => F
  | none => ⟨[], fun _ => 0, fun _ => 0⟩

def kmSmallFit : Option KMFitted := KaplanMeierFitter.fitState [1, 2] none none

def kmSmall : KMFitted :=
  match kmSmallFit with
  | some F => F
  | none => ⟨[], fun _ => 0, fun _ => 0, none⟩

def naZeroFit : Option NAFitted := NelsonAalenFitter.fitState true [0] none none

def naZero : NAFitted :=
  match naZeroFit with
  | some F => F
  | none => ⟨[], fun _ => 0, fun _ => 0⟩

def aalenExampleFit : Option (AAFitted 1 1) :=
  AalenAdditiveFitter.fitState false 0 (![1] : Fin 1 → ℚ) (Matrix.of ![![(2 : ℚ)]])
    none none

def aalenExample : AAFitted 1 1 :=
  match aalenExampleFit with
  | some F => F
  | none => default

/-- A two-subject Aalen design whose first step inverts successfully and whose
second step is singular (the second subject's covariate row is zero). -/
def c4times : Fin 2 → ℚ := ![1, 2]

def c4obs : Fin 2 → Bool := fun _ => true

def c4init : AAState 2 1 :=
  { X := Matrix.of ![![(1 : ℚ)], ![0]], V := none, v := fun _ => 0, cum := fun _ => 0
    t0 := 1, cumHaz := fun _ _ => 0, haz := fun _ _ => 0, varAcc := fun _ _ => 0 }

/-- The state after the (successful) first step of the `c4` design. -/
def c4afterFirst : AAState 2 1 :=
  match aalenStep 0 c4times c4obs c4init 0 with
  | some s => s
  | none => c4init

/-- The pseudo-inverse direction bound by the first step of the `c4` design. -/
def c4V : Matrix (Fin 1) (Fin 2) ℚ :=
  match c4afterFirst.V with
  | some V => V
  | none => 0

/-! ## Properties of the insertion sort and of the risk-set aggregator -/

theorem mem_insertLe {α : Type} (le : α → α → Bool) (x a : α) :
    ∀ l : List α, a ∈ insertLe le x l ↔ a = x ∨ a ∈ l := by
  intro l
  induction l with
  | nil => simp [insertLe]
  | cons y ys ih =>
    rw [insertLe]
    by_cases h : le x y = true
    · simp [h]
    · rw [if_neg h]
      simp only [List.mem_cons, ih]
      tauto

theorem perm_insertLe {α : Type} (le : α → α → Bool) (x : α) :
    ∀ l : List α, (insertLe le x l).Perm (x :: l) := by
  intro l
  induction l with
  | nil => simp [insertLe]
  | cons y ys ih =>
    rw [insertLe]
    by_cases h : le x y = true
    · simp [h]
    · simp only [h, if_false]
      exact (ih.cons y).trans (List.Perm.swap x y ys)

theorem perm_isortBy {α : Type} (le : α → α → Bool) :
    ∀ l : List α, (isortBy le l).Perm l := by
  intro l
  induction l with
  | nil => simp [isortBy]
  | cons x xs ih =>
    rw [isortBy]
    exact (perm_insertLe le x (isortBy le xs)).trans (ih.cons x)

theorem sorted_insertLe (x : ℚ) :
    ∀ l : List ℚ, l.Pairwise (fun a b => a ≤ b) →
      (insertLe (fun a b => decide (a ≤ b)) x l).Pairwise (fun a b => a ≤ b) := by
  intro l
  induction l with
  | nil => simp [insertLe]
  | cons y ys ih =>
    intro h
    rw [List.pairwise_cons] at h
    rw [insertLe]
    by_cases hxy : x ≤ y
    · rw [if_pos (by simpa using hxy)]
      refine List.pairwise_cons.mpr ⟨?_, List.pairwise_cons.mpr h⟩
      intro b hb
      rcases List.mem_cons.mp hb with hb | hb
      · exact hb ▸ hxy
      · exact hxy.trans (h.1 b hb)
    · rw [if_neg (by simpa using hxy)]
      refine List.pairwise_cons.mpr ⟨?_, ih h.2⟩
      intro b hb
      rcases (mem_insertLe _ x b ys).mp hb with hb' | hb'
      · exact hb' ▸ (le_of_not_le hxy)
      · exact h.1 b hb'

theorem sorted_isortBy :
    ∀ l : List ℚ, (isortBy (fun a b => decide (a ≤ b)) l).Pairwise (fun a b => a ≤ b) := by
  intro l
  induction l with
  | nil => simp [isortBy]
  | cons x xs ih => exact sorted_insertLe x _ ih

/-- The sorted deduplicated list of distinct times is strictly ascending. -/
theorem sortedTimes_lt (times : List ℚ) :
    (isortBy (fun a b => decide (a ≤ b)) times.dedup).Pairwise (fun a b => a < b) := by
  have hs : (isortBy (fun a b => decide (a ≤ b)) times.dedup).Pairwise
      (fun a b => a ≤ b) := sorted_isortBy times.dedup
  have hnd : (isortBy (fun a b => decide (a ≤ b)) times.dedup).Nodup :=
    ((perm_isortBy _ times.dedup).symm.nodup (List.nodup_dedup times))
  exact List.Sorted.lt_of_le hs hnd

theorem mem_sortedTimes (times : List ℚ) (t : ℚ) :
    t ∈ isortBy (fun a b => decide (a ≤ b)) times.dedup ↔ t ∈ times := by
  rw [(perm_isortBy _ times.dedup).mem_iff, List.mem_dedup]

theorem countP_and_split {α : Type} (p q : α → Bool) (l : List α) :
    l.countP (fun a => p a && q a) + l.countP (fun a => p a && !q a) = l.countP p := by
  induction l with
  | nil => simp
  | cons a l ih =>
    simp only [List.countP_cons]
    cases hp : p a <;> cases hq : q a <;> simp [hp, hq] <;> omega

theorem countP_zip_fst (p : ℚ → Bool) :
    ∀ (ts : List ℚ) (cs : List Bool), ts.length = cs.length →
      (ts.zip cs).countP (fun pr => p pr.1) = ts.countP p := by
  intro ts
  induction ts with
  | nil => intro cs _; simp
  | cons t ts ih =>
    intro cs hlen
    match cs with
    | [] => exact absurd hlen (by simp)
    | c :: cs =>
      simp only [List.zip_cons_cons, List.countP_cons, ih cs (by simpa using hlen)]

theorem countP_eq_one_of_nodup (t : ℚ) :
    ∀ l : List ℚ, l.Nodup → t ∈ l → l.countP (fun a => decide (a = t)) = 1 := by
  intro l
  induction l with
  | nil => intro _ h; simp at h
  | cons a l ih =>
    intro hnd hmem
    rw [List.nodup_cons] at hnd
    rw [List.countP_cons]
    by_cases h : a = t
    · have hz : l.countP (fun b => decide (b = t)) = 0 :=
        List.countP_eq_zero.mpr (fun b hb => by
          simp only [decide_eq_true_eq]
          intro hbt
          exact hnd.1 (show a ∈ l by rw [h]; exact hbt ▸ hb))
      simp [hz, h]
    · have hmem' : t ∈ l := by
        rcases List.mem_cons.mp hmem with h' | h'
        · exact absurd h'.symm h
        · exact h'
      simp [ih hnd.2 hmem', h]

/-- Every row of the aggregated table satisfies the risk-set invariant
`removed = observed_deaths + missing` with nonnegative counts, and its time is one
of the input times. -/
theorem agg_row_invariants (times : List ℚ) (cens : List Bool) (r : RiskSetRow)
    (hr : r ∈ dataframe_from_events_censorship times cens) :
    r.removed = r.observed_deaths + r.missing ∧ 0 ≤ r.observed_deaths ∧
      0 ≤ r.missing ∧ r.time ∈ times := by
  rw [dataframe_from_events_censorship, List.mem_map] at hr
  obtain ⟨t, ht, hrt⟩ := hr
  subst hrt
  refine ⟨?_, ?_, ?_, (mem_sortedTimes times t).mp ht⟩
  · have := countP_and_split (fun pr : ℚ × Bool => decide (pr.1 = t))
      (fun pr : ℚ × Bool => pr.2) (times.zip cens)
    simp only [riskSetRowAt]
    omega
  · exact Int.ofNat_nonneg _
  · exact Int.ofNat_nonneg _

/-- The rows of the aggregated table are strictly ascending in time. -/
theorem agg_sorted (times : List ℚ) (cens : List Bool) :
    (dataframe_from_events_censorship times cens).Pairwise
      (fun a b => a.time < b.time) := by
  rw [dataframe_from_events_censorship, List.pairwise_map]
  exact sortedTimes_lt times

theorem agg_ne_nil (times : List ℚ) (cens : List Bool) (h : times ≠ []) :
    dataframe_from_events_censorship times cens ≠ [] := by
  rw [dataframe_from_events_censorship]
  intro hc
  rw [List.map_eq_nil_iff] at hc
  match times, h with
  | t :: ts, _ =>
    have : t ∈ isortBy (fun a b => decide (a ≤ b)) (t :: ts).dedup :=
      (mem_sortedTimes _ t).mpr (List.mem_cons_self t ts)
    rw [hc] at this
    exact absurd this (List.not_mem_nil t)

/-- With an all-censored sample no row records an observed death. -/
theorem agg_observed_zero (times : List ℚ) (cens : List Bool)
    (hall : ∀ c ∈ cens, c = false) (r : RiskSetRow)
    (hr : r ∈ dataframe_from_events_censorship times cens) : r.observed_deaths = 0 := by
  rw [dataframe_from_events_censorship, List.mem_map] at hr
  obtain ⟨t, _, hrt⟩ := hr
  subst hrt
  simp only [riskSetRowAt]
  have hz : (times.zip cens).countP (fun pr => decide (pr.1 = t) && pr.2) = 0 :=
    List.countP_eq_zero.mpr (fun pr hpr => by
      have h2 : pr.2 ∈ cens := (List.of_mem_zip hpr).2
      simp [hall pr.2 h2])
  simp [hz]

/-- With pairwise distinct event times every row removes exactly one subject. -/
theorem agg_removed_one (times : List ℚ) (cens : List Bool) (hnd : times.Nodup)
    (hlen : times.length = cens.length) (r : RiskSetRow)
    (hr : r ∈ dataframe_from_events_censorship times cens) : r.removed = 1 := by
  rw [dataframe_from_events_censorship, List.mem_map] at hr
  obtain ⟨t, ht, hrt⟩ := hr
  subst hrt
  simp only [riskSetRowAt]
  rw [countP_zip_fst (fun a => decide (a = t)) times cens hlen,
    countP_eq_one_of_nodup t times hnd ((mem_sortedTimes times t).mp ht)]
  rfl

/-! ## The per-point value of the additive estimator -/

/-- The value that the additive estimator assigns to a query point `x`, given the
remaining rows, the current risk-set size `N` and the current accumulated value `v`:
on the interval `[previous row time, r.time)` the point keeps the running value `v`
(right-continuous, flat between jumps); each processed row first removes `missing`
from `N`, then applies the update (in the source `v += f(N, d)`), then removes
`observed_deaths` from `N`; a point at or beyond the last row's time receives the
final accumulated value (flat, no extrapolation). -/
def aeValueAt (upd : ℚ → ℤ → ℤ → ℚ) : List RiskSetRow → ℤ → ℚ → ℚ → ℚ
  | [], _, v, _ => v
  | r :: rs, N, v, x =>
    if x < r.time then v
    else aeValueAt upd rs (N - r.missing - r.observed_deaths)
      (upd v (N - r.missing) r.observed_deaths) x

/-- Bridge between the imperative fold of `_additive_estimate` and the per-point
value `aeValueAt`: after the loop and the trailing assignment, each curve maps a
point `x` below the cursor to its previous value and any other point to the running
value at `x`. -/
theorem aeRun_curves (updV updS : ℚ → ℤ → ℤ → ℚ) :
    ∀ (rows : List RiskSetRow) (s : AEState),
      rows.Pairwise (fun a b => a.time < b.time) →
      (∀ r ∈ rows, s.t0 ≤ r.time) →
      (aeRun updV updS rows s).est =
        (fun x => if x < s.t0 then s.est x else aeValueAt updV rows s.N s.v x) ∧
      (aeRun updV updS rows s).var =
        (fun x => if x < s.t0 then s.var x else aeValueAt updS rows s.N s.v_sq x) := by
  intro rows
  induction rows with
  | nil =>
    intro s _ _
    constructor <;> funext x <;>
        simp only [aeRun, List.foldl_nil, aeFinal, aeValueAt] <;>
        rcases le_or_lt s.t0 x with h | h
    · simp [h, not_lt.mpr h]
    · simp [h, not_le.mpr h]
    · simp [h, not_lt.mpr h]
    · simp [h, not_le.mpr h]
  | cons r rs ih =>
    intro s hpw hlb
    rw [List.pairwise_cons] at hpw
    have hstep : aeRun updV updS (r :: rs) s =
        aeRun updV updS rs (aeStep updV updS s r) := by
      simp [aeRun, List.foldl_cons]
    have hlb' : ∀ r' ∈ rs, (aeStep updV updS s r).t0 ≤ r'.time := by
      intro r' hr'
      exact le_of_lt (hpw.1 r' hr')
    obtain ⟨hest, hvar⟩ := ih (aeStep updV updS s r) hpw.2 hlb'
    rw [hstep]
    have ht0r : s.t0 ≤ r.time := hlb r (List.mem_cons_self r rs)
    constructor
    · rw [hest]
      funext x
      rcases lt_or_le x s.t0 with h1 | h1
      · have h2 : x < r.time := lt_of_lt_of_le h1 ht0r
        simp only [aeStep, aeValueAt, h2, if_pos h2, if_pos h1]
        simp [not_le.mpr h1]
      · rcases lt_or_le x r.time with h2 | h2
        · simp only [aeStep, aeValueAt, if_pos h2, if_pos (And.intro h1 h2)]
          simp [not_lt.mpr h1]
        · simp only [aeStep, aeValueAt, if_neg (not_lt.mpr h2)]
          simp [not_lt.mpr (le_trans ht0r h2), not_lt.mpr h2]
    · rw [hvar]
      funext x
      rcases lt_or_le x s.t0 with h1 | h1
      · have h2 : x < r.time := lt_of_lt_of_le h1 ht0r
        simp only [aeStep, aeValueAt, h2, if_pos h2, if_pos h1]
        simp [not_le.mpr h1]
      · rcases lt_or_le x r.time with h2 | h2
        · simp only [aeStep, aeValueAt, if_pos h2, if_pos (And.intro h1 h2)]
          simp [not_lt.mpr h1]
        · simp only [aeStep, aeValueAt, if_neg (not_lt.mpr h2)]
          simp [not_lt.mpr (le_trans ht0r h2), not_lt.mpr h2]

/-- A query point below the first row's time (in particular any negative point when
the times are nonnegative) keeps the initial value. -/
theorem aeValueAt_lt_head (upd : ℚ → ℤ → ℤ → ℚ) (r : RiskSetRow) (rs : List RiskSetRow)
    (N : ℤ) (v x : ℚ) (h : x < r.time) : aeValueAt upd (r :: rs) N v x = v := by
  simp [aeValueAt, h]

/-- Characterization of `additiveRun` on a sorted risk-set table with nonnegative
times: the returned curves are exactly `aeValueAt` from the initial risk-set size
`N = sum of removed` and the initial values `v0` (estimate) and `0` (variance). -/
theorem additiveRun_eq (updV updS : ℚ → ℤ → ℤ → ℚ) (v0 : ℚ) (rows : List RiskSetRow)
    (tl : List ℚ) (hrows : rows ≠ []) (htl : tl ≠ [])
    (hsort : rows.Pairwise (fun a b => a.time < b.time))
    (hnn : ∀ r ∈ rows, 0 ≤ r.time) :
    additiveRun updV updS v0 rows tl =
      some (prependZero tl,
        fun x => aeValueAt updV rows (sumRemoved rows) v0 x,
        fun x => aeValueAt updS rows (sumRemoved rows) 0 x) := by
  match tl, htl with
  | th :: tl', _ =>
    match rows, hrows with
    | r :: rs, _ =>
      obtain ⟨hest, hvar⟩ := aeRun_curves updV updS (r :: rs)
        { N := sumRemoved (r :: rs), v := v0, v_sq := 0, t0 := 0
          est := fun _ => v0, var := fun _ => 0 } hsort
        (fun r' hr' => hnn r' hr')
      rw [additiveRun]
      simp only [hest, hvar]
      have hhead : (0 : ℚ) ≤ r.time := hnn r (List.mem_cons_self r rs)
      refine congrArg some (congrArg _ ?_)
      refine congrArg₂ _ ?_ ?_ <;> funext x <;>
        rcases lt_or_le x 0 with h | h
      · rw [if_pos h, aeValueAt_lt_head updV r rs _ v0 x (lt_of_lt_of_le h hhead)]
      · rw [if_neg (not_lt.mpr h)]
      · rw [if_pos h, aeValueAt_lt_head updS r rs _ 0 x (lt_of_lt_of_le h hhead)]
      · rw [if_neg (not_lt.mpr h)]

/-- The total removed count of an invariant-satisfying table is nonnegative. -/
theorem sumRemoved_nonneg :
    ∀ rows : List RiskSetRow,
      (∀ r ∈ rows, r.removed = r.observed_deaths + r.missing ∧
        0 ≤ r.observed_deaths ∧ 0 ≤ r.missing) → 0 ≤ sumRemoved rows := by
  intro rows
  induction rows with
  | nil => intro _; simp [sumRemoved]
  | cons a l ihl =>
    intro hl
    obtain ⟨ha, hb, hc⟩ := hl a (List.mem_cons_self a l)
    have h2 := ihl (fun r' hr' => hl r' (List.mem_cons_of_mem a hr'))
    rw [sumRemoved, List.map_cons, List.sum_cons]
    rw [sumRemoved] at h2
    omega

/-- On a risk-set table satisfying the row invariants, with `N` the total `removed`
of the remaining rows, a monotone update function keeps `aeValueAt` monotone in the
query point and bounded below by the running value.  The update is applied to
`N - missing ≥ observed_deaths ≥ 0`, which is exactly where the hypothesis `hupd`
is available. -/
theorem aeValueAt_mono (upd : ℚ → ℤ → ℤ → ℚ)
    (hupd : ∀ (w : ℚ) (N' d : ℤ), 0 ≤ d → d ≤ N' → w ≤ upd w N' d) :
    ∀ (rows : List RiskSetRow) (N : ℤ) (v : ℚ), N = sumRemoved rows →
      (∀ r ∈ rows, r.removed = r.observed_deaths + r.missing ∧
        0 ≤ r.observed_deaths ∧ 0 ≤ r.missing) →
      (∀ x y : ℚ, x ≤ y → aeValueAt upd rows N v x ≤ aeValueAt upd rows N v y) ∧
      (∀ x : ℚ, v ≤ aeValueAt upd rows N v x) := by
  intro rows
  induction rows with
  | nil =>
    intro N v _ _
    constructor
    · intro x y _; simp [aeValueAt]
    · intro x; simp [aeValueAt]
  | cons r rs ih =>
    intro N v hN hinv
    obtain ⟨hrem, hd, hm⟩ := hinv r (List.mem_cons_self r rs)
    have hsumtail : 0 ≤ (rs.map RiskSetRow.removed).sum := by
      have := sumRemoved_nonneg rs (fun r' hr' => hinv r' (List.mem_cons_of_mem r hr'))
      rwa [sumRemoved] at this
    have hNsub : N - r.missing - r.observed_deaths = sumRemoved rs := by
      rw [hN]
      simp only [sumRemoved, List.map_cons, List.sum_cons]
      omega
    have hdle : r.observed_deaths ≤ N - r.missing := by
      rw [hN]
      simp only [sumRemoved, List.map_cons, List.sum_cons]
      omega
    have hvle : v ≤ upd v (N - r.missing) r.observed_deaths := hupd v _ _ hd hdle
    obtain ⟨ihmono, ihlb⟩ := ih (N - r.missing - r.observed_deaths)
      (upd v (N - r.missing) r.observed_deaths) hNsub
      (fun r' hr' => hinv r' (List.mem_cons_of_mem r hr'))
    constructor
    · intro x y hxy
      rcases lt_or_le x r.time with hx | hx
      · rcases lt_or_le y r.time with hy | hy
        · simp [aeValueAt, hx, hy]
        · rw [aeValueAt_lt_head upd r rs N v x hx]
          simp only [aeValueAt, if_neg (not_lt.mpr hy)]
          exact le_trans hvle (ihlb y)
      · have hy : ¬ y < r.time := not_lt.mpr (le_trans hx hxy)
        simp only [aeValueAt, if_neg (not_lt.mpr hx), if_neg hy]
        exact ihmono x y hxy
    · intro x
      rcases lt_or_le x r.time with hx | hx
      · simp [aeValueAt, hx]
      · simp only [aeValueAt, if_neg (not_lt.mpr hx)]
        exact le_trans hvle (ihlb x)

/-- `_additive_f_smooth` is nonnegative whenever `0 ≤ d ≤ N`. -/
theorem additive_f_smooth_nonneg (N d : ℤ) (_hd : 0 ≤ d) (hdN : d ≤ N) :
    0 ≤ _additive_f_smooth N d := by
  rw [_additive_f_smooth]
  split
  · exact le_refl 0
  · refine List.sum_nonneg ?_
    intro a ha
    rw [List.mem_map] at ha
    obtain ⟨i, hi, rfl⟩ := ha
    rw [List.mem_range] at hi
    have hiQ : (i : ℚ) < (d : ℚ) := by
      have : (i : ℤ) < d := by omega
      exact_mod_cast this
    have hdQ : (d : ℚ) ≤ (N : ℚ) := by exact_mod_cast hdN
    have : (0 : ℚ) < (N : ℚ) - (i : ℚ) := by linarith
    positivity

/-- `_additive_f_discrete` is nonnegative whenever `0 ≤ d ≤ N`. -/
theorem additive_f_discrete_nonneg (N d : ℤ) (hd : 0 ≤ d) (hdN : d ≤ N) :
    0 ≤ _additive_f_discrete N d := by
  rw [_additive_f_discrete]
  split
  · exact le_refl 0
  · rename_i h
    have hN : 0 < N := by
      rcases lt_or_eq_of_le (le_trans hd hdN) with h' | h'
      · exact h'
      · exact absurd ⟨h'.symm, by omega⟩ h
    have hNQ : (0 : ℚ) < (N : ℚ) := by exact_mod_cast hN
    have hdQ : (0 : ℚ) ≤ (d : ℚ) := by exact_mod_cast hd
    positivity

/-- `_additive_estimate` on a sorted table with nonnegative times, in terms of
`aeValueAt` (the shared helper behind the claim theorems below). -/
theorem additive_estimate_eq (rows : List RiskSetRow) (tl : List ℚ)
    (f g : ℤ → ℤ → ℚ) (hrows : rows ≠ []) (htl : tl ≠ [])
    (hsort : rows.Pairwise (fun a b => a.time < b.time))
    (hnn : ∀ r ∈ rows, 0 ≤ r.time) :
    _additive_estimate rows tl f g =
      some (prependZero tl,
        fun x => aeValueAt (fun v N d => v + f N d) rows (sumRemoved rows) 0 x,
        fun x => aeValueAt (fun w N d => w + g N d) rows (sumRemoved rows) 0 x) := by
  rw [_additive_estimate]
  exact additiveRun_eq _ _ 0 rows tl hrows htl hsort hnn

/-- `additiveRun` on nonempty rows and timeline, unfolded (no hypotheses). -/
theorem additiveRun_cons (updV updS : ℚ → ℤ → ℤ → ℚ) (v0 : ℚ) (r : RiskSetRow)
    (rows : List RiskSetRow) (t : ℚ) (tl : List ℚ) :
    additiveRun updV updS v0 (r :: rows) (t :: tl) =
      some (prependZero (t :: tl),
        (aeRun updV updS (r :: rows)
          { N := sumRemoved (r :: rows), v := v0, v_sq := 0, t0 := 0
            est := fun _ => v0, var := fun _ => 0 }).est,
        (aeRun updV updS (r :: rows)
          { N := sumRemoved (r :: rows), v := v0, v_sq := 0, t0 := 0
            est := fun _ => v0, var := fun _ => 0 }).var) := rfl

/-- The estimate curve of `aeRun` depends on the variance update only through
nothing: runs with the same value update and pointwise-agreeing updates on the
rows' death counts produce the same estimate curve. -/
theorem aeRun_est_congr (upd₁ upd₂ updS₁ updS₂ : ℚ → ℤ → ℤ → ℚ) :
    ∀ (rows : List RiskSetRow) (s₁ s₂ : AEState),
      s₁.N = s₂.N → s₁.v = s₂.v → s₁.t0 = s₂.t0 → s₁.est = s₂.est →
      (∀ r ∈ rows, ∀ (v : ℚ) (N : ℤ),
        upd₁ v N r.observed_deaths = upd₂ v N r.observed_deaths) →
      (aeRun upd₁ updS₁ rows s₁).est = (aeRun upd₂ updS₂ rows s₂).est := by
  intro rows
  induction rows with
  | nil =>
    intro s₁ s₂ hN hv ht hest _
    simp only [aeRun, List.foldl_nil, aeFinal, ht, hv, hest]
  | cons r rs ih =>
    intro s₁ s₂ hN hv ht hest hagree
    have h1 : aeRun upd₁ updS₁ (r :: rs) s₁ =
        aeRun upd₁ updS₁ rs (aeStep upd₁ updS₁ s₁ r) := by
      simp [aeRun, List.foldl_cons]
    have h2 : aeRun upd₂ updS₂ (r :: rs) s₂ =
        aeRun upd₂ updS₂ rs (aeStep upd₂ updS₂ s₂ r) := by
      simp [aeRun, List.foldl_cons]
    rw [h1, h2]
    refine ih _ _ ?_ ?_ ?_ ?_ (fun r' hr' => hagree r' (List.mem_cons_of_mem r hr'))
    · simp [aeStep, hN]
    · simp only [aeStep, hN, hv]
      exact hagree r (List.mem_cons_self r rs) s₂.v (s₂.N - r.missing)
    · simp [aeStep]
    · simp only [aeStep, ht, hv, hest]

/-- If the value update fixes the constant `c` on every row of the table, the whole
estimate curve stays at `c`. -/
theorem aeRun_est_const (updV updS : ℚ → ℤ → ℤ → ℚ) (c : ℚ) :
    ∀ (rows : List RiskSetRow) (s : AEState),
      (∀ r ∈ rows, ∀ N : ℤ, updV c N r.observed_deaths = c) →
      s.v = c → (∀ x, s.est x = c) →
      ∀ x, (aeRun updV updS rows s).est x = c := by
  intro rows
  induction rows with
  | nil =>
    intro s _ hv hest x
    simp only [aeRun, List.foldl_nil, aeFinal]
    split
    · exact hv
    · exact hest x
  | cons r rs ih =>
    intro s hfix hv hest x
    have h1 : aeRun updV updS (r :: rs) s = aeRun updV updS rs (aeStep updV updS s r) := by
      simp [aeRun, List.foldl_cons]
    rw [h1]
    refine ih _ (fun r' hr' => hfix r' (List.mem_cons_of_mem r hr')) ?_ ?_ x
    · simp only [aeStep]
      rw [hv]
      exact hfix r (List.mem_cons_self r rs) _
    · intro y
      simp only [aeStep]
      split
      · exact hv
      · exact hest y

/-- Both Nelson-Aalen increment variants vanish on a row with no observed deaths. -/
theorem additive_f_zero_deaths (N : ℤ) :
    _additive_f_smooth N 0 = 0 ∧ _additive_f_discrete N 0 = 0 := by
  constructor
  · rw [_additive_f_smooth]
    split
    · rfl
    · simp
  · rw [_additive_f_discrete]
    split
    · rfl
    · simp

/-- The Kaplan-Meier survival factor is `1` on a row with no observed deaths. -/
theorem km_factor_zero_deaths (N : ℤ) : _km_factor N 0 = 1 := by
  rw [_km_factor]
  split
  · rfl
  · simp

/-- The smooth and discrete Nelson-Aalen increments agree when at most one death
occurs at a time. -/
theorem additive_f_agree (N d : ℤ) (hd : d = 0 ∨ d = 1) :
    _additive_f_smooth N d = _additive_f_discrete N d := by
  rcases hd with rfl | rfl
  · rw [(additive_f_zero_deaths N).1, (additive_f_zero_deaths N).2]
  · rw [_additive_f_smooth, _additive_f_discrete]
    have h1 : ¬((N = 0 ∧ (1 : ℤ) = 0)) := by omega
    rw [if_neg h1, if_neg h1]
    norm_num [List.range_succ]

/-! ## Claim theorems -/

/-- Claim C1: for every risk-set table whose rows are ascending in time (strictly,
per the table invariant) with nonnegative times, and every nonempty timeline, the
generic additive estimator `_additive_estimate` computes exactly the curves
described by `aeValueAt`: every timeline point in `[t0, t)` of a step carries the
running accumulated value `v` (and `v_sq` for the variance curve), each step
subtracts `missing` from the risk-set size `N` before applying the increment
`f(N, d)` and the variance `g(N, d)`, subtracts `d` from `N` after, and every
timeline point at or beyond the last event time carries the final `v` and `v_sq`
(flat, no extrapolation) -- see the definition of `aeValueAt`. -/
theorem additive_estimate_characterization (rows : List RiskSetRow) (tl : List ℚ)
    (f g : ℤ → ℤ → ℚ) (hrows : rows ≠ []) (htl : tl ≠ [])
    (hsort : rows.Pairwise (fun a b => a.time < b.time))
    (hnn : ∀ r ∈ rows, 0 ≤ r.time) :
    _additive_estimate rows tl f g =
      some (prependZero tl,
        fun x => aeValueAt (fun v N d => v + f N d) rows (sumRemoved rows) 0 x,
        fun x => aeValueAt (fun w N d => w + g N d) rows (sumRemoved rows) 0 x) :=
  additive_estimate_eq rows tl f g hrows htl hsort hnn

/-- Concrete instantiation of C1 discharging its hypotheses at the one-row table
`[(1, 1, 1, 0)]` with timeline `[1]` and the discrete increments. -/
theorem additive_estimate_characterization_witness :
    ([⟨1, 1, 1, 0⟩] : List RiskSetRow) ≠ [] ∧ ([1] : List ℚ) ≠ [] ∧
    ([⟨1, 1, 1, 0⟩] : List RiskSetRow).Pairwise (fun a b => a.time < b.time) ∧
    (∀ r ∈ ([⟨1, 1, 1, 0⟩] : List RiskSetRow), 0 ≤ r.time) ∧
    _additive_estimate [⟨1, 1, 1, 0⟩] [1] _additive_f_discrete _variance_f_discrete =
      some (prependZero [1],
        fun x => aeValueAt (fun v N d => v + _additive_f_discrete N d)
          [⟨1, 1, 1, 0⟩] (sumRemoved [⟨1, 1, 1, 0⟩]) 0 x,
        fun x => aeValueAt (fun w N d => w + _variance_f_discrete N d)
          [⟨1, 1, 1, 0⟩] (sumRemoved [⟨1, 1, 1, 0⟩]) 0 x) :=
  ⟨by decide, by decide, by decide, by decide,
    additive_estimate_characterization [⟨1, 1, 1, 0⟩] [1] _ _ (by decide) (by decide)
      (by decide) (by decide)⟩

/-- Claim C2 counterexample: on the worked sample (times `[1, 2, 2, 3]`, the
subject at time 2 censored) the code computes `S(2) = 3/8`, not the claimed
`1/2`, and `H(2) = 3/4` for the discrete Nelson-Aalen variant, not the claimed
`1/4 + 1/3`: the loop of `_additive_estimate` subtracts the censored count of a
row from the risk set *before* computing that row's increment, so the increment at
`t = 2` sees `N = 2`, not `N = 3`. -/
theorem worked_example_counterexample :
    kmWorkedFit = some kmWorked ∧ naWorkedFit = some naWorked ∧
    kmWorked.survival_function_ 2 = 3 / 8 ∧ ¬ kmWorked.survival_function_ 2 = 1 / 2 ∧
    naWorked.cumulative_hazard_ 2 = 3 / 4 ∧
    ¬ naWorked.cumulative_hazard_ 2 = 1 / 4 + 1 / 3 :=
  ⟨by with_unfolding_all rfl, by with_unfolding_all rfl, by with_unfolding_all decide,
    by with_unfolding_all decide, by with_unfolding_all decide,
    by with_unfolding_all decide⟩

/-- Claim C2 (amended): on the worked sample the Kaplan-Meier survival is
`S(1) = 3/4`, `S(2) = 3/8`, `S(3) = 0` and the discrete Nelson-Aalen cumulative
hazard is `H(1) = 1/4`, `H(2) = 1/4 + 1/2`, `H(3) = 1/4 + 1/2 + 1`: at `t = 2` the
censored subject has already been removed, so the increment is `d/N = 1/2`. -/
theorem worked_example_amended :
    kmWorkedFit = some kmWorked ∧ naWorkedFit = some naWorked ∧
    kmWorked.survival_function_ 1 = 3 / 4 ∧ kmWorked.survival_function_ 2 = 3 / 8 ∧
    kmWorked.survival_function_ 3 = 0 ∧ naWorked.cumulative_hazard_ 1 = 1 / 4 ∧
    naWorked.cumulative_hazard_ 2 = 1 / 4 + 1 / 2 ∧
    naWorked.cumulative_hazard_ 3 = 1 / 4 + 1 / 2 + 1 :=
  ⟨by with_unfolding_all rfl, by with_unfolding_all rfl, by with_unfolding_all decide,
    by with_unfolding_all decide, by with_unfolding_all decide,
    by with_unfolding_all decide, by with_unfolding_all decide,
    by with_unfolding_all decide⟩

/-- A `None` censorship argument is the all-observed default (line 47). -/
theorem na_fitState_none_censorship (b : Bool) (times : List ℚ)
    (tl : Option (List ℚ)) :
    NelsonAalenFitter.fitState b times none tl =
      NelsonAalenFitter.fitState b times (some (List.replicate times.length true)) tl :=
  rfl

/-- A `None` censorship argument is the all-observed default (lines 118-119). -/
theorem km_fitState_none_censorship (times : List ℚ) (tl : Option (List ℚ)) :
    KaplanMeierFitter.fitState times none tl =
      KaplanMeierFitter.fitState times (some (List.replicate times.length true)) tl :=
  rfl

/-- Workhorse for the Nelson-Aalen shape claims: with a nonempty sample and the
default timeline, the fit succeeds and the fitted cumulative hazard and variance
accumulator are the `aeValueAt` curves over the aggregated table. -/
theorem na_fitState_closed_form (b : Bool) (times : List ℚ) (cens : List Bool)
    (hne : times ≠ []) (hnn : ∀ t ∈ times, 0 ≤ t) :
    NelsonAalenFitter.fitState b times (some cens) none =
      some { timeline := prependZero
               ((dataframe_from_events_censorship times cens).map RiskSetRow.time)
             cumulative_hazard_ := fun x =>
               aeValueAt
                 (fun v N d => v +
                   (if b then _additive_f_smooth else _additive_f_discrete) N d)
                 (dataframe_from_events_censorship times cens)
                 (sumRemoved (dataframe_from_events_censorship times cens)) 0 x
             cumulative_sq_ := fun x =>
               aeValueAt
                 (fun w N d => w +
                   (if b then _variance_f_smooth else _variance_f_discrete) N d)
                 (dataframe_from_events_censorship times cens)
                 (sumRemoved (dataframe_from_events_censorship times cens)) 0 x } := by
  have hrows : dataframe_from_events_censorship times cens ≠ [] :=
    agg_ne_nil times cens hne
  have htl : (dataframe_from_events_censorship times cens).map RiskSetRow.time ≠ [] := by
    simpa [List.map_eq_nil_iff] using hrows
  have hrnn : ∀ r ∈ dataframe_from_events_censorship times cens, 0 ≤ r.time :=
    fun r hr => hnn r.time (agg_row_invariants times cens r hr).2.2.2
  have hchar := additive_estimate_eq (dataframe_from_events_censorship times cens)
    ((dataframe_from_events_censorship times cens).map RiskSetRow.time)
    (if b then _additive_f_smooth else _additive_f_discrete)
    (if b then _variance_f_smooth else _variance_f_discrete)
    hrows htl (agg_sorted times cens) hrnn
  simp only [NelsonAalenFitter.fitState]
  rw [hchar]
  rfl

/-- Claim C7 (amended): for every nonempty sample with nonnegative times (any
censorship array, either smoothing variant), the fitted Nelson-Aalen cumulative
hazard is non-decreasing -- globally in the query point, hence in particular along
the timeline.  When all event times are strictly positive it moreover starts at
`0` at time `0` (which the prepended origin puts on the timeline); a sample with
an event at time exactly `0` already has positive hazard at `0`, see
`na_zero_time_counterexample`. -/
theorem na_cumulative_hazard_monotone (b : Bool) (times : List ℚ)
    (censorship : Option (List Bool)) (hne : times ≠ [])
    (hnn : ∀ t ∈ times, 0 ≤ t) :
    ∃ F, NelsonAalenFitter.fitState b times censorship none = some F ∧
      (∀ x y : ℚ, x ≤ y → F.cumulative_hazard_ x ≤ F.cumulative_hazard_ y) ∧
      ((∀ t ∈ times, 0 < t) →
        (0 : ℚ) ∈ F.timeline ∧ F.cumulative_hazard_ 0 = 0) := by
  have main : ∀ cens : List Bool,
      ∃ F, NelsonAalenFitter.fitState b times (some cens) none = some F ∧
        (∀ x y : ℚ, x ≤ y → F.cumulative_hazard_ x ≤ F.cumulative_hazard_ y) ∧
        ((∀ t ∈ times, 0 < t) →
          (0 : ℚ) ∈ F.timeline ∧ F.cumulative_hazard_ 0 = 0) := by
    intro cens
    refine ⟨_, na_fitState_closed_form b times cens hne hnn, ?_, ?_⟩
    · have hinv : ∀ r ∈ dataframe_from_events_censorship times cens,
          r.removed = r.observed_deaths + r.missing ∧ 0 ≤ r.observed_deaths ∧
            0 ≤ r.missing := fun r hr =>
        ⟨(agg_row_invariants times cens r hr).1,
          (agg_row_invariants times cens r hr).2.1,
          (agg_row_invariants times cens r hr).2.2.1⟩
      have hupd : ∀ (w : ℚ) (N' d : ℤ), 0 ≤ d → d ≤ N' →
          w ≤ w + (if b then _additive_f_smooth else _additive_f_discrete) N' d := by
        intro w N' d hd hdN
        have : 0 ≤ (if b then _additive_f_smooth else _additive_f_discrete) N' d := by
          cases b
          · simpa using additive_f_discrete_nonneg N' d hd hdN
          · simpa using additive_f_smooth_nonneg N' d hd hdN
        linarith
      exact (aeValueAt_mono _ hupd (dataframe_from_events_censorship times cens)
        (sumRemoved (dataframe_from_events_censorship times cens)) 0 rfl hinv).1
    · intro hpos
      obtain ⟨r, rs, hrr⟩ :=
        List.exists_cons_of_ne_nil (agg_ne_nil times cens hne)
      have hrmem : r ∈ dataframe_from_events_censorship times cens := by
        rw [hrr]
        exact List.mem_cons_self r rs
      have hr0 : 0 < r.time :=
        hpos r.time (agg_row_invariants times cens r hrmem).2.2.2
      constructor
      · show (0 : ℚ) ∈ prependZero
          ((dataframe_from_events_censorship times cens).map RiskSetRow.time)
        rw [hrr, List.map_cons]
        simp only [prependZero, if_pos hr0]
        exact List.mem_cons_self 0 _
      · show aeValueAt
            (fun v N d => v + (if b then _additive_f_smooth else _additive_f_discrete) N d)
            (dataframe_from_events_censorship times cens)
            (sumRemoved (dataframe_from_events_censorship times cens)) 0 0 = 0
        rw [hrr]
        exact aeValueAt_lt_head _ r rs _ 0 0 hr0
  rcases censorship with _ | c
  · rw [na_fitState_none_censorship]
    exact main (List.replicate times.length true)
  · exact main c

/-- Concrete instantiation of C7 at the sample `[1, 2]` with default censorship
and the smooth variant. -/
theorem na_cumulative_hazard_monotone_witness :
    (([1, 2] : List ℚ) ≠ [] ∧ (∀ t ∈ ([1, 2] : List ℚ), 0 ≤ t)) ∧
    (∃ F, NelsonAalenFitter.fitState true [1, 2] none none = some F ∧
      (∀ x y : ℚ, x ≤ y → F.cumulative_hazard_ x ≤ F.cumulative_hazard_ y) ∧
      ((∀ t ∈ ([1, 2] : List ℚ), 0 < t) →
        (0 : ℚ) ∈ F.timeline ∧ F.cumulative_hazard_ 0 = 0)) :=
  ⟨⟨by decide, by decide⟩,
    na_cumulative_hazard_monotone true [1, 2] none (by decide) (by decide)⟩

/-- Claim C7 counterexample: the sample with a single observed event at time `0`
satisfies the claim's hypotheses (risk-set invariants, finite times `≥ 0`), yet the
fitted cumulative hazard at time `0` is `1`, not `0`: the event at the origin fires
inside the interval `[0, ∞)`, so the curve is already positive at time `0`. -/
theorem na_zero_time_counterexample :
    (∀ t ∈ ([0] : List ℚ), 0 ≤ t) ∧ naZeroFit = some naZero ∧
    naZero.cumulative_hazard_ 0 = 1 ∧ ¬ naZero.cumulative_hazard_ 0 = 0 :=
  ⟨by decide, by with_unfolding_all rfl, by with_unfolding_all decide,
    by with_unfolding_all decide⟩

/-- The Nelson-Aalen fit on a sample whose aggregated table is the explicit
nonempty list `r :: rs`, with the default timeline, unfolded to its `aeRun` form
(no sortedness needed). -/
theorem na_fitState_cons (b : Bool) (times : List ℚ) (cens : List Bool)
    (r : RiskSetRow) (rs : List RiskSetRow)
    (hrr : dataframe_from_events_censorship times cens = r :: rs) :
    NelsonAalenFitter.fitState b times (some cens) none =
      some { timeline := prependZero ((r :: rs).map RiskSetRow.time)
             cumulative_hazard_ := (aeRun
                 (fun v N d => v +
                   (if b then _additive_f_smooth else _additive_f_discrete) N d)
                 (fun w N d => w +
                   (if b then _variance_f_smooth else _variance_f_discrete) N d)
                 (r :: rs)
                 { N := sumRemoved (r :: rs), v := 0, v_sq := 0, t0 := 0
                   est := fun _ => 0, var := fun _ => 0 }).est
             cumulative_sq_ := (aeRun
                 (fun v N d => v +
                   (if b then _additive_f_smooth else _additive_f_discrete) N d)
                 (fun w N d => w +
                   (if b then _variance_f_smooth else _variance_f_discrete) N d)
                 (r :: rs)
                 { N := sumRemoved (r :: rs), v := 0, v_sq := 0, t0 := 0
                   est := fun _ => 0, var := fun _ => 0 }).var } := by
  simp only [NelsonAalenFitter.fitState, _additive_estimate]
  rw [hrr, List.map_cons, additiveRun_cons]
  rfl

/-- The Kaplan-Meier fit on a sample whose aggregated table is the explicit
nonempty list `r :: rs`, with the default timeline, unfolded to its `aeRun` form. -/
theorem km_fitState_cons (times : List ℚ) (cens : List Bool)
    (r : RiskSetRow) (rs : List RiskSetRow)
    (hrr : dataframe_from_events_censorship times cens = r :: rs) :
    KaplanMeierFitter.fitState times (some cens) none =
      some { timeline := prependZero ((r :: rs).map RiskSetRow.time)
             survival_function_ := (aeRun (fun v N d => v * _km_factor N d)
                 (fun w N d => w + KaplanMeierFitter._variance_f N d) (r :: rs)
                 { N := sumRemoved (r :: rs), v := 1, v_sq := 0, t0 := 0
                   est := fun _ => 1, var := fun _ => 0 }).est
             cumulative_sq_ := (aeRun (fun v N d => v * _km_factor N d)
                 (fun w N d => w + KaplanMeierFitter._variance_f N d) (r :: rs)
                 { N := sumRemoved (r :: rs), v := 1, v_sq := 0, t0 := 0
                   est := fun _ => 1, var := fun _ => 0 }).var
             median_ := median_survival_times
               (prependZero ((r :: rs).map RiskSetRow.time))
               ((prependZero ((r :: rs).map RiskSetRow.time)).map
                 (aeRun (fun v N d => v * _km_factor N d)
                   (fun w N d => w + KaplanMeierFitter._variance_f N d) (r :: rs)
                   { N := sumRemoved (r :: rs), v := 1, v_sq := 0, t0 := 0
                     est := fun _ => 1, var := fun _ => 0 }).est) } := by
  simp only [KaplanMeierFitter.fitState, kmSurvivalEstimate]
  rw [hrr, List.map_cons, additiveRun_cons]
  rfl

/-- `aeValueAt` only consults the update function at the rows' death counts. -/
theorem aeValueAt_congr (upd₁ upd₂ : ℚ → ℤ → ℤ → ℚ) :
    ∀ (rows : List RiskSetRow) (N : ℤ) (v : ℚ),
      (∀ r ∈ rows, ∀ (w : ℚ) (N' : ℤ),
        upd₁ w N' r.observed_deaths = upd₂ w N' r.observed_deaths) →
      ∀ x, aeValueAt upd₁ rows N v x = aeValueAt upd₂ rows N v x := by
  intro rows
  induction rows with
  | nil => intro N v _ x; rfl
  | cons r rs ih =>
    intro N v hagree x
    simp only [aeValueAt]
    split
    · rfl
    · rw [hagree r (List.mem_cons_self r rs) v (N - r.missing)]
      exact ih _ _ (fun r' hr' => hagree r' (List.mem_cons_of_mem r hr')) x

/-- Claim C8: on a sample whose event times are pairwise distinct (no ties, so a
row records at most one death), the smooth and the discrete Nelson-Aalen variants
produce the same cumulative-hazard curve at every point (their variance curves may
still differ). -/
theorem na_smooth_discrete_coincide (times : List ℚ) (censorship : Option (List Bool))
    (hnd : times.Nodup) (hne : times ≠ []) (hnn : ∀ t ∈ times, 0 ≤ t)
    (hlen : ∀ c, censorship = some c → times.length = c.length) :
    ∃ F G, NelsonAalenFitter.fitState true times censorship none = some F ∧
      NelsonAalenFitter.fitState false times censorship none = some G ∧
      F.timeline = G.timeline ∧
      ∀ x, F.cumulative_hazard_ x = G.cumulative_hazard_ x := by
  have main : ∀ cens : List Bool, times.length = cens.length →
      ∃ F G, NelsonAalenFitter.fitState true times (some cens) none = some F ∧
        NelsonAalenFitter.fitState false times (some cens) none = some G ∧
        F.timeline = G.timeline ∧
        ∀ x, F.cumulative_hazard_ x = G.cumulative_hazard_ x := by
    intro cens hlc
    refine ⟨_, _, na_fitState_closed_form true times cens hne hnn,
      na_fitState_closed_form false times cens hne hnn, rfl, ?_⟩
    intro x
    show aeValueAt (fun v N d => v + _additive_f_smooth N d)
        (dataframe_from_events_censorship times cens)
        (sumRemoved (dataframe_from_events_censorship times cens)) 0 x =
      aeValueAt (fun v N d => v + _additive_f_discrete N d)
        (dataframe_from_events_censorship times cens)
        (sumRemoved (dataframe_from_events_censorship times cens)) 0 x
    refine aeValueAt_congr _ _ _ _ _ ?_ x
    intro r hr w N'
    have h1 := agg_row_invariants times cens r hr
    have h2 := agg_removed_one times cens hnd hlc r hr
    have hd : r.observed_deaths = 0 ∨ r.observed_deaths = 1 := by omega
    rw [additive_f_agree N' r.observed_deaths hd]
  rcases censorship with _ | c
  · rw [na_fitState_none_censorship true, na_fitState_none_censorship false]
    exact main (List.replicate times.length true) (by simp)
  · exact main c (hlen c rfl)

/-- Concrete instantiation of C8 at the tie-free sample `[1, 3]`. -/
theorem na_smooth_discrete_coincide_witness :
    (([1, 3] : List ℚ).Nodup ∧ ([1, 3] : List ℚ) ≠ [] ∧
      (∀ t ∈ ([1, 3] : List ℚ), 0 ≤ t)) ∧
    (∃ F G, NelsonAalenFitter.fitState true [1, 3] none none = some F ∧
      NelsonAalenFitter.fitState false [1, 3] none none = some G ∧
      F.timeline = G.timeline ∧
      ∀ x, F.cumulative_hazard_ x = G.cumulative_hazard_ x) :=
  ⟨⟨by decide, by decide, by decide⟩,
    na_smooth_discrete_coincide [1, 3] none (by decide) (by decide) (by decide)
      (fun c hc => by cases hc)⟩

/-- Claim C5 counterexample: fitting the nonparametric estimators on an EMPTY
sample is an error, not a completed fit with flat curves: the default timeline is
empty, so `_additive_estimate` raises IndexError at `timeline[0]` (and with a
nonempty explicit timeline the zero-iteration loop leaves `t` unbound and line 193
raises NameError). -/
theorem empty_sample_fit_errors :
    NelsonAalenFitter.fitState true [] none none = none ∧
    NelsonAalenFitter.fitState false [] none none = none ∧
    KaplanMeierFitter.fitState [] none none = none ∧
    NelsonAalenFitter.fitState true [] none (some [1, 2]) = none ∧
    KaplanMeierFitter.fitState [] none (some [1, 2]) = none :=
  ⟨by with_unfolding_all rfl, by with_unfolding_all rfl, by with_unfolding_all rfl,
    by with_unfolding_all rfl, by with_unfolding_all rfl⟩

/-- Claim C5 (amended): on a nonempty all-censored sample (zero observed events)
both nonparametric fits run to completion and the curves stay at their initial
values: cumulative hazard `0` everywhere for Nelson-Aalen and survival `1`
everywhere for Kaplan-Meier.  (The empty sample, by contrast, raises -- see
`empty_sample_fit_errors`.) -/
theorem all_censored_flat (b : Bool) (times : List ℚ) (cens : List Bool)
    (hne : times ≠ []) (hall : ∀ c ∈ cens, c = false) :
    (∃ F, NelsonAalenFitter.fitState b times (some cens) none = some F ∧
      ∀ x, F.cumulative_hazard_ x = 0) ∧
    (∃ G, KaplanMeierFitter.fitState times (some cens) none = some G ∧
      ∀ x, G.survival_function_ x = 1) := by
  obtain ⟨r, rs, hrr⟩ := List.exists_cons_of_ne_nil (agg_ne_nil times cens hne)
  have hd0 : ∀ r' ∈ dataframe_from_events_censorship times cens,
      r'.observed_deaths = 0 := fun r' hr' => agg_observed_zero times cens hall r' hr'
  constructor
  · refine ⟨_, na_fitState_cons b times cens r rs hrr, ?_⟩
    intro x
    refine aeRun_est_const _ _ 0 (r :: rs) _ ?_ rfl (fun _ => rfl) x
    intro r' hr' N
    have hd := hd0 r' (by rw [hrr]; exact hr')
    rw [hd]
    cases b
    · show 0 + _additive_f_discrete N 0 = 0
      rw [(additive_f_zero_deaths N).2, add_zero]
    · show 0 + _additive_f_smooth N 0 = 0
      rw [(additive_f_zero_deaths N).1, add_zero]
  · refine ⟨_, km_fitState_cons times cens r rs hrr, ?_⟩
    intro x
    refine aeRun_est_const _ _ 1 (r :: rs) _ ?_ rfl (fun _ => rfl) x
    intro r' hr' N
    have hd := hd0 r' (by rw [hrr]; exact hr')
    rw [hd]
    show 1 * _km_factor N 0 = 1
    rw [km_factor_zero_deaths, mul_one]

/-- Concrete instantiation of C5 at the all-censored sample `[1, 2]`. -/
theorem all_censored_flat_witness :
    (([1, 2] : List ℚ) ≠ [] ∧ (∀ c ∈ [false, false], c = false)) ∧
    ((∃ F, NelsonAalenFitter.fitState true [1, 2] (some [false, false]) none = some F ∧
      ∀ x, F.cumulative_hazard_ x = 0) ∧
    (∃ G, KaplanMeierFitter.fitState [1, 2] (some [false, false]) none = some G ∧
      ∀ x, G.survival_function_ x = 1)) :=
  ⟨⟨by decide, by decide⟩,
    all_censored_flat true [1, 2] [false, false] (by decide) (by decide)⟩

/-- Claim C6 counterexample: a completing `NelsonAalenFitter.fit` call returns
Python `None` (the method body ends in a bare `return` at line 65), not the model
instance: the return value is `some none`, never `some (some F)`. -/
theorem na_fit_returns_none :
    NelsonAalenFitter.fitReturn true [1, 2] none none = some none ∧
    naSmallFit = some naSmall :=
  ⟨by with_unfolding_all rfl, by with_unfolding_all rfl⟩

/-- Claim C6 (amended): on every input on which the fits complete,
`KaplanMeierFitter.fit` and `AalenAdditiveFitter.fit` return the model instance
itself (`return self`, lines 139 and 295), but `NelsonAalenFitter.fit` returns
Python `None` (bare `return`, line 65) despite having written the fitted state to
`self`. -/
theorem fit_return_values (b : Bool) (times timesKM : List ℚ)
    (cens censKM : Option (List Bool)) (tlNA tlKM : Option (List ℚ))
    (fi : Bool) (penal : ℚ) {n d : ℕ} (eventA : Fin n → ℚ)
    (XA : Matrix (Fin n) (Fin d) ℚ) (tlA : Option (List ℚ))
    (censA : Option (Fin n → Bool)) (F : NAFitted) (G : KMFitted)
    (H : AAFitted n (aalenP fi d))
    (hF : NelsonAalenFitter.fitState b times cens tlNA = some F)
    (hG : KaplanMeierFitter.fitState timesKM censKM tlKM = some G)
    (hH : AalenAdditiveFitter.fitState fi penal eventA XA tlA censA = some H) :
    NelsonAalenFitter.fitReturn b times cens tlNA = some none ∧
    (∀ F' : NAFitted, ¬ NelsonAalenFitter.fitReturn b times cens tlNA = some (some F')) ∧
    KaplanMeierFitter.fitReturn timesKM censKM tlKM = some (some G) ∧
    AalenAdditiveFitter.fitReturn fi penal eventA XA tlA censA = some (some H) := by
  refine ⟨?_, ?_, ?_, ?_⟩
  · rw [NelsonAalenFitter.fitReturn, hF]
    rfl
  · intro F' hcontra
    rw [NelsonAalenFitter.fitReturn, hF] at hcontra
    simp at hcontra
  · rw [KaplanMeierFitter.fitReturn, hG]
    rfl
  · rw [AalenAdditiveFitter.fitReturn, hH]
    rfl

/-- Concrete instantiation of C6: the three fitters on small complete samples. -/
theorem fit_return_values_witness :
    (naSmallFit = some naSmall ∧ kmSmallFit = some kmSmall ∧
      aalenExampleFit = some aalenExample) ∧
    (NelsonAalenFitter.fitReturn true [1, 2] none none = some none ∧
      (∀ F' : NAFitted,
        ¬ NelsonAalenFitter.fitReturn true [1, 2] none none = some (some F')) ∧
      KaplanMeierFitter.fitReturn [1, 2] none none = some (some kmSmall) ∧
      AalenAdditiveFitter.fitReturn false 0 (![1] : Fin 1 → ℚ)
        (Matrix.of ![![(2 : ℚ)]]) none none = some (some aalenExample)) :=
  ⟨⟨by with_unfolding_all rfl, by with_unfolding_all rfl, by with_unfolding_all rfl⟩,
    fit_return_values true [1, 2] [1, 2] none none none none false 0
      (![1] : Fin 1 → ℚ) (Matrix.of ![![(2 : ℚ)]]) none none naSmall kmSmall
      aalenExample (by with_unfolding_all rfl) (by with_unfolding_all rfl)
      (by with_unfolding_all rfl)⟩

/-- Claim C4 counterexample: when `X^T X - penalizer` is singular already at the
FIRST step, the fit aborts instead of skipping the step: the `except LinAlgError`
handler (lines 269-276) reads the local variable `V`, which no iteration has bound
yet, so the handler itself raises NameError.  Here: one subject with a zero
covariate row and no penalizer. -/
theorem aalen_first_step_singular_aborts :
    AalenAdditiveFitter.fitState false 0 (![1] : Fin 1 → ℚ)
      (Matrix.of ![![(0 : ℚ)]]) none none = none := by
  with_unfolding_all rfl

/-- Claim C4 (amended): when `X^T X - penalizer` is singular at a step at which a
previous iteration has already bound `V` (any step after the first successful
inversion), the fit does not abort: the step returns a new state whose `cum_v` is
unchanged, the affected timeline points `(t_0, t_i]` are assigned exactly the
previous cumulative value (and the stale `V`'s squared column as the degenerate
variance contribution), all other points keep their values, and the loop continues
with the remaining steps.  If instead no `V` is bound yet (the first step), the
step -- and with it the whole fit -- aborts, see
`aalen_first_step_singular_aborts`. -/
theorem aalen_singular_step_skips {n p : ℕ} (penal : ℚ) (times : Fin n → ℚ)
    (obs : Fin n → Bool) (s : AAState n p) (i : Fin n)
    (V0 : Matrix (Fin p) (Fin n) ℚ) (hV : s.V = some V0)
    (hsing : matInv ((censoredX s.X obs i).transpose * censoredX s.X obs i -
      penal • (1 : Matrix (Fin p) (Fin p) ℚ)) = none) :
    ∃ s', aalenStep penal times obs s i = some s' ∧
      s'.cum = s.cum ∧ s'.v = s.v ∧ s'.V = s.V ∧
      (∀ x : ℚ, s.t0 < x ∧ x ≤ times i → s'.cumHaz x = s.cum) ∧
      (∀ x : ℚ, ¬ (s.t0 < x ∧ x ≤ times i) → s'.cumHaz x = s.cumHaz x) ∧
      (∀ x : ℚ, s.t0 < x ∧ x ≤ times i → s'.varAcc x = fun j => V0 j i ^ 2) ∧
      (∀ rest : List (Fin n), aalenLoop penal times obs (i :: rest) s =
        aalenLoop penal times obs rest s') := by
  have hstep : aalenStep penal times obs s i =
      some { X := zeroRow (censoredX s.X obs i) i, V := some V0, v := s.v
             cum := s.cum, t0 := times i
             cumHaz := fun x =>
               if s.t0 < x ∧ x ≤ times i then s.cum else s.cumHaz x
             haz := Function.update s.haz i s.v
             varAcc := fun x =>
               if s.t0 < x ∧ x ≤ times i then (fun j => V0 j i ^ 2)
               else s.varAcc x } := by
    rw [aalenStep]
    simp only [hsing, hV]
  refine ⟨_, hstep, rfl, rfl, hV.symm, ?_, ?_, ?_, ?_⟩
  · intro x hx
    simp only [if_pos hx]
  · intro x hx
    simp only [if_neg hx]
  · intro x hx
    simp only [if_pos hx]
  · intro rest
    rw [aalenLoop, hstep]

/-- Concrete instantiation of C4's amended theorem: the second step of the `c4`
design (second covariate row zero) is singular after a successful first step. -/
theorem aalen_singular_step_skips_witness :
    (c4afterFirst.V = some c4V ∧
      matInv ((censoredX c4afterFirst.X c4obs 1).transpose *
        censoredX c4afterFirst.X c4obs 1 -
        (0 : ℚ) • (1 : Matrix (Fin 1) (Fin 1) ℚ)) = none) ∧
    (∃ s', aalenStep 0 c4times c4obs c4afterFirst 1 = some s' ∧
      s'.cum = c4afterFirst.cum ∧ s'.v = c4afterFirst.v ∧ s'.V = c4afterFirst.V ∧
      (∀ x : ℚ, c4afterFirst.t0 < x ∧ x ≤ c4times 1 → s'.cumHaz x = c4afterFirst.cum) ∧
      (∀ x : ℚ, ¬ (c4afterFirst.t0 < x ∧ x ≤ c4times 1) →
        s'.cumHaz x = c4afterFirst.cumHaz x) ∧
      (∀ x : ℚ, c4afterFirst.t0 < x ∧ x ≤ c4times 1 →
        s'.varAcc x = fun j => c4V j 1 ^ 2) ∧
      (∀ rest : List (Fin 2), aalenLoop 0 c4times c4obs (1 :: rest) c4afterFirst =
        aalenLoop 0 c4times c4obs rest s')) :=
  ⟨⟨by with_unfolding_all rfl, by with_unfolding_all rfl⟩,
    aalen_singular_step_skips 0 c4times c4obs c4afterFirst 1 c4V
      (by with_unfolding_all rfl) (by with_unfolding_all rfl)⟩

/-- Claim C10: a fit with the censorship argument omitted stores the raw `None`
(line 293) -- not the all-observed default it used internally (lines 239-242) --
so every subsequent `smoothed_hazards_` call fails (`None.astype(bool)` raises
AttributeError) instead of returning the smoothed hazard path. -/
theorem smoothed_hazards_fails_without_censorship (fi : Bool) (penal : ℚ)
    {n d : ℕ} (event_times : Fin n → ℚ) (X : Matrix (Fin n) (Fin d) ℚ)
    (tl : Option (List ℚ)) (F : AAFitted n (aalenP fi d))
    (hfit : AalenAdditiveFitter.fitState fi penal event_times X tl none = some F) :
    F.censorship = none ∧ ∀ bw : ℝ, F.smoothed_hazards_ bw = none := by
  have hc : F.censorship = none := by
    rw [AalenAdditiveFitter.fitState.eq_def] at hfit
    simp only [] at hfit
    repeat' split at hfit
    all_goals cases hfit <;> rfl
  refine ⟨hc, fun bw => ?_⟩
  rw [AAFitted.smoothed_hazards_, hc]

/-- Concrete instantiation of C10: the one-subject Aalen example fitted without a
censorship argument. -/
theorem smoothed_hazards_fails_without_censorship_witness :
    (aalenExampleFit = some aalenExample) ∧
    (aalenExample.censorship = none ∧
      ∀ bw : ℝ, aalenExample.smoothed_hazards_ bw = none) :=
  ⟨by with_unfolding_all rfl,
    smoothed_hazards_fails_without_censorship false 0 (![1] : Fin 1 → ℚ)
      (Matrix.of ![![(2 : ℚ)]]) none aalenExample (by with_unfolding_all rfl)⟩

/-- Claim C9 (code bug): at the prepended origin the fitted Nelson-Aalen estimate
and its variance accumulator are both `0`, while the confidence-bound formulas of
`_bounds` (lines 71-72) divide by the estimate:
`H(t) * exp(±z * sqrt(var(t)) / H(t))` evaluates `0 * exp(z * 0/0)` at `t = 0`,
which is NaN in IEEE arithmetic, so `lower ≤ estimate ≤ upper` fails there (NaN
comparisons are false).  The Kaplan-Meier bounds (lines 151-153) similarly compute
`log(-log 1) = log 0` and `0/0` wherever the survival curve is still `1`; only
the Aalen regressor's additive bands `cum ± z * sqrt(var)` (lines 312-313) avoid
the division. -/
theorem na_bounds_divide_by_zero_at_origin :
    naSmallFit = some naSmall ∧ (0 : ℚ) ∈ naSmall.timeline ∧
    naSmall.cumulative_hazard_ 0 = 0 ∧ naSmall.cumulative_sq_ 0 = 0 :=
  ⟨by with_unfolding_all rfl, by with_unfolding_all decide,
    by with_unfolding_all decide, by with_unfolding_all decide⟩

/-- In a non-increasing list the last element is a lower bound. -/
theorem chain_le_getLast :
    ∀ l : List ℚ, l.Chain' (fun a b => b ≤ a) →
      ∀ la, l.getLast? = some la → ∀ s ∈ l, la ≤ s := by
  intro l
  induction l with
  | nil =>
    intro _ la hla
    cases hla
  | cons x xs ih =>
    intro hch la hla s hs
    cases xs with
    | nil =>
      rw [List.getLast?_singleton, Option.some.injEq] at hla
      rcases List.mem_singleton.mp hs with rfl
      rw [← hla]
    | cons y ys =>
      rw [List.getLast?_cons_cons] at hla
      have hch2 := List.chain'_cons.mp hch
      rcases List.mem_cons.mp hs with rfl | hs'
      · exact le_trans (ih hch2.2 la hla y (List.mem_cons_self y ys)) hch2.1
      · exact ih hch2.2 la hla s hs'

/-- `firstDropIdx` returns the index value of the first position whose value lies
below `q`, when one exists. -/
theorem firstDropIdx_eq (q : ℚ) :
    ∀ (idx vals : List ℚ), idx.length = vals.length → (∃ s ∈ vals, s < q) →
      ∃ k, ∃ (hk : k < vals.length) (hk' : k < idx.length),
        firstDropIdx q idx vals = idx.get ⟨k, hk'⟩ ∧ vals.get ⟨k, hk⟩ < q ∧
        ∀ m, ∀ hm : m < vals.length, m < k → ¬ vals.get ⟨m, hm⟩ < q := by
  intro idx
  induction idx with
  | nil =>
    intro vals hlen hex
    have hv : vals = [] := by
      cases vals with
      | nil => rfl
      | cons v vs => simp at hlen
    subst hv
    rcases hex with ⟨s, hs, _⟩
    cases hs
  | cons i is ih =>
    intro vals hlen hex
    cases vals with
    | nil =>
      rcases hex with ⟨s, hs, _⟩
      cases hs
    | cons v vs =>
      by_cases hv : v < q
      · refine ⟨0, by simp, by simp, ?_, ?_, ?_⟩
        · simp [firstDropIdx, hv]
        · simpa using hv
        · intro m _ hmk
          omega
      · have hex' : ∃ s ∈ vs, s < q := by
          rcases hex with ⟨s, hs, hsq⟩
          rcases List.mem_cons.mp hs with rfl | hs'
          · exact absurd hsq hv
          · exact ⟨s, hs', hsq⟩
        obtain ⟨k, hk, hk', heq, hlt, hbefore⟩ := ih vs (by simpa using hlen) hex'
        refine ⟨k + 1, by simpa using Nat.succ_lt_succ hk,
          by simpa using Nat.succ_lt_succ hk', ?_, ?_, ?_⟩
        · simp only [firstDropIdx, if_neg hv]
          rw [heq]
          rfl
        · simpa using hlt
        · intro m hm hmk
          cases m with
          | zero => simpa using hv
          | succ m' =>
            have := hbefore m' (by simpa using hm) (by omega)
            simpa using this

/-- Claim C3: for every `q ∈ [0, 1]` and every survival curve (a nonempty
non-increasing column `vals` over the strictly ascending nonnegative index
`idx`), `qth_survival_times` returns `-1` exactly when the curve never drops
below `q` anywhere on its domain, and otherwise returns the index value (time) of
the first -- and, the index being ascending, smallest -- position where the curve
drops below `q`. -/
theorem qth_survival_times_spec (q : ℚ) (idx vals : List ℚ)
    (hq : 0 ≤ q ∧ q ≤ 1) (hne : vals ≠ []) (hlen : idx.length = vals.length)
    (hmono : vals.Chain' (fun a b => b ≤ a)) (hidx : ∀ t ∈ idx, 0 ≤ t)
    (hsorted : idx.Pairwise (fun a b => a < b)) :
    (qth_survival_times q idx vals = some (-1) ↔ ∀ s ∈ vals, ¬ s < q) ∧
    ((∃ s ∈ vals, s < q) →
      ∃ k, ∃ (hk : k < vals.length) (hk' : k < idx.length),
        qth_survival_times q idx vals = some (idx.get ⟨k, hk'⟩) ∧
        vals.get ⟨k, hk⟩ < q ∧
        (∀ m, ∀ hm : m < vals.length, m < k → ¬ vals.get ⟨m, hm⟩ < q) ∧
        (∀ m, ∀ (hm' : m < idx.length) (hmv : m < vals.length),
          vals.get ⟨m, hmv⟩ < q → idx.get ⟨k, hk'⟩ ≤ idx.get ⟨m, hm'⟩)) := by
  have hlast : vals.getLast? = some (vals.getLast hne) :=
    List.getLast?_eq_getLast vals hne
  have hlastmem : vals.getLast hne ∈ vals := List.getLast_mem hne
  have hmin : ∀ s ∈ vals, vals.getLast hne ≤ s := chain_le_getLast vals hmono _ hlast
  have hqth : qth_survival_times q idx vals =
      if vals.getLast hne < q then some (firstDropIdx q idx vals) else some (-1) := by
    rw [qth_survival_times, if_pos hq, hlast]
  constructor
  · constructor
    · intro h
      by_cases hdrop : vals.getLast hne < q
      · exfalso
        rw [hqth, if_pos hdrop] at h
        obtain ⟨k, hk, hk', heq, _, _⟩ :=
          firstDropIdx_eq q idx vals hlen ⟨_, hlastmem, hdrop⟩
        rw [heq, Option.some.injEq] at h
        have h0 : (0 : ℚ) ≤ idx.get ⟨k, hk'⟩ := hidx _ (List.get_mem idx k hk')
        rw [h] at h0
        linarith
      · intro s hs hsq
        exact hdrop (lt_of_le_of_lt (hmin s hs) hsq)
    · intro hall
      rw [hqth, if_neg (hall _ hlastmem)]
  · intro hex
    have hdrop : vals.getLast hne < q := by
      rcases hex with ⟨s, hs, hsq⟩
      exact lt_of_le_of_lt (hmin s hs) hsq
    obtain ⟨k, hk, hk', heq, hlt, hbefore⟩ := firstDropIdx_eq q idx vals hlen hex
    refine ⟨k, hk, hk', ?_, hlt, hbefore, ?_⟩
    · rw [hqth, if_pos hdrop, heq]
    · intro m hm' hmv hdropm
      rcases lt_trichotomy m k with hmk | rfl | hkm
      · exact absurd hdropm (hbefore m hmv hmk)
      · exact le_refl _
      · exact le_of_lt (List.pairwise_iff_get.mp hsorted ⟨k, hk'⟩ ⟨m, hm'⟩
          (Fin.mk_lt_mk.mpr hkm))

/-- Concrete instantiation of C3 at the Kaplan-Meier curve of the worked sample:
survival values `[1, 3/4, 3/8, 0]` over the times `[0, 1, 2, 3]`, queried at the
median level `q = 1/2`. -/
theorem qth_survival_times_spec_witness :
    (((0 : ℚ) ≤ 1 / 2 ∧ (1 : ℚ) / 2 ≤ 1) ∧ ([1, 3 / 4, 3 / 8, 0] : List ℚ) ≠ [] ∧
      ([0, 1, 2, 3] : List ℚ).length = ([1, 3 / 4, 3 / 8, 0] : List ℚ).length) ∧
    ((qth_survival_times (1 / 2) [0, 1, 2, 3] [1, 3 / 4, 3 / 8, 0] = some (-1) ↔
        ∀ s ∈ ([1, 3 / 4, 3 / 8, 0] : List ℚ), ¬ s < 1 / 2) ∧
      ((∃ s ∈ ([1, 3 / 4, 3 / 8, 0] : List ℚ), s < 1 / 2) →
        ∃ k, ∃ (hk : k < ([1, 3 / 4, 3 / 8, 0] : List ℚ).length)
          (hk' : k < ([0, 1, 2, 3] : List ℚ).length),
          qth_survival_times (1 / 2) [0, 1, 2, 3] [1, 3 / 4, 3 / 8, 0] =
            some (([0, 1, 2, 3] : List ℚ).get ⟨k, hk'⟩) ∧
          ([1, 3 / 4, 3 / 8, 0] : List ℚ).get ⟨k, hk⟩ < 1 / 2 ∧
          (∀ m, ∀ hm : m < ([1, 3 / 4, 3 / 8, 0] : List ℚ).length, m < k →
            ¬ ([1, 3 / 4, 3 / 8, 0] : List ℚ).get ⟨m, hm⟩ < 1 / 2) ∧
          (∀ m, ∀ (hm' : m < ([0, 1, 2, 3] : List ℚ).length)
            (hmv : m < ([1, 3 / 4, 3 / 8, 0] : List ℚ).length),
            ([1, 3 / 4, 3 / 8, 0] : List ℚ).get ⟨m, hmv⟩ < 1 / 2 →
            ([0, 1, 2, 3] : List ℚ).get ⟨k, hk'⟩ ≤
              ([0, 1, 2, 3] : List ℚ).get ⟨m, hm'⟩))) :=
  ⟨⟨⟨by norm_num, by norm_num⟩, by decide, by decide⟩,
    qth_survival_times_spec (1 / 2) [0, 1, 2, 3] [1, 3 / 4, 3 / 8, 0]
      ⟨by norm_num, by norm_num⟩ (by decide) (by decide)
      (by norm_num [List.chain'_cons]) (by with_unfolding_all decide)
      (by norm_num [List.pairwise_cons])⟩

end Lifelines
